import Mathlib

/-!
# Verification of the Archimedes core against its specification

Shallow embedding of the repository's core components and proofs of the
specification's claims about them.

Embedded components:

* `YieldOptimizerHook` (Solidity): per-pool idle-liquidity ledger, the
  `beforeSwap` just-in-time recall, and the backend invest/withdraw calls.
  Solidity `uint256` arithmetic is checked (0.8.x semantics): additions and
  subtractions that would leave `[0, 2^256)` revert, modelled by `Except`.
  Addresses and currencies are modelled as naturals; a mapping entry for one
  pool is modelled as one `HookPoolState` (every operation involved touches a
  single pool's entries of each Solidity mapping).
* `BasketSwapper` (Solidity): the atomic N-leg basket swap.  The EVM's
  transaction-revert semantics is modelled by `applyTx`: an `Except.error`
  result leaves the pre-transaction state observable.
* the quote engine and path selector (TypeScript): JS strings are modelled as
  `List Char`, JS numbers as exact rationals `ℚ` (the reference prices and the
  decimal strings exchanged between hops are all exactly representable), and
  `Number.prototype.toFixed` / `parseFloat` as an executable decimal renderer
  and parser (`toFixedStr` / `parseAmt`).
* the idle-liquidity manager (TypeScript): `calculateInvestmentAmount` and
  `calculate5050Ratio` over `bigint`, modelled as `ℤ` with truncating
  division `Int.tdiv` (JS bigint `/` truncates toward zero; division by zero
  throws, modelled by an `Option` result).
-/

set_option maxRecDepth 100000

/-! ## Solidity: YieldOptimizerHook (per-pool state and operations) -/

/-- `2^256`, the bound of Solidity `uint256`; arithmetic that leaves
`[0, UINT256_BOUND)` reverts under Solidity 0.8 checked semantics. -/
def UINT256_BOUND : ℕ := 2 ^ 256

/-- One entry of `idlePositions[poolId]`: capital moved out of the pool into an
external yield venue (struct `IdlePosition` of `YieldOptimizerHook`). -/
structure IdlePosition where
  platform : ℕ
  currency : ℕ
  amount : ℕ
  timestamp : ℕ
  deriving DecidableEq, Repr

/-- The per-pool slice of the hook's storage: `idlePositions[poolId]`,
`volumeThresholds[poolId]`, `lastVolumeCheck[poolId]`, `poolVolume[poolId]`,
`totalInvestedAmount[poolId]`. -/
structure HookPoolState where
  idlePositions : List IdlePosition
  volumeThreshold : ℕ
  lastVolumeCheck : ℕ
  poolVolume : ℕ
  totalInvestedAmount : ℕ
  deriving DecidableEq, Repr

/-- Sum of the `amount` fields of a position list. -/
def sumAmounts (l : List IdlePosition) : ℕ :=
  (l.map IdlePosition.amount).sum

/-- `investIdleLiquidity(key, currency, amount, platform)` (backend-only):
pushes a new `IdlePosition` with the current timestamp and adds `amount` to
`totalInvestedAmount[poolId]`.  The checked `+=` reverts on overflow. -/
def investIdleLiquidity (currency amount platform ts : ℕ) (s : HookPoolState) :
    Except String HookPoolState :=
  if s.totalInvestedAmount + amount < UINT256_BOUND then
    Except.ok
      { s with
        idlePositions :=
          s.idlePositions ++ [⟨platform, currency, amount, ts⟩]
        totalInvestedAmount := s.totalInvestedAmount + amount }
  else Except.error "arithmetic overflow"

/-- `withdrawInvestedLiquidity(key, positionIndex, amount)` (backend-only):
requires a valid index and `position.amount >= amount`; decrements the
position and `totalInvestedAmount`; if the position reaches zero it is
removed by writing the last element over it and popping. -/
def withdrawInvestedLiquidity (positionIndex amount : ℕ) (s : HookPoolState) :
    Except String HookPoolState :=
  if h : positionIndex < s.idlePositions.length then
    let position := s.idlePositions.get ⟨positionIndex, h⟩
    if amount ≤ position.amount then
      if amount ≤ s.totalInvestedAmount then
        let updated := { position with amount := position.amount - amount }
        let positions1 := s.idlePositions.set positionIndex updated
        let positions2 :=
          if updated.amount = 0 then
            (positions1.set positionIndex
              (positions1.getD (positions1.length - 1) updated)).dropLast
          else positions1
        Except.ok
          { s with
            idlePositions := positions2
            totalInvestedAmount := s.totalInvestedAmount - amount }
      else Except.error "arithmetic underflow"
    else Except.error "Insufficient invested amount"
  else Except.error "Invalid position"

/-- The loop body of `_recallLiquidityFromYield(key, requiredAmount)`:
walks the positions in index order while `recalled < requiredAmount`,
draining each position by `toRecall = min(position.amount,
requiredAmount - recalled)`.  Note: `totalInvestedAmount` is NOT updated. -/
def recallLoop (requiredAmount : ℕ) : ℕ → List IdlePosition → List IdlePosition
  | _, [] => []
  | recalled, p :: ps =>
    if recalled < requiredAmount then
      let toRecall :=
        if requiredAmount < recalled + p.amount then requiredAmount - recalled
        else p.amount
      { p with amount := p.amount - toRecall } ::
        recallLoop requiredAmount (recalled + toRecall) ps
    else p :: ps

/-- `_getLargeSwapThreshold(poolId)`: `volumeThresholds[poolId] / 10`. -/
def getLargeSwapThreshold (s : HookPoolState) : ℕ :=
  s.volumeThreshold / 10

/-- `_beforeSwap`: computes `swapAmount = |params.amountSpecified|` (the
negation of `int256.min` reverts), recalls idle liquidity when the amount
strictly exceeds the large-swap threshold, then adds the amount to
`poolVolume[poolId]` (checked `+=`) and stamps `lastVolumeCheck[poolId]`. -/
def beforeSwap (amountSpecified : ℤ) (ts : ℕ) (s : HookPoolState) :
    Except String HookPoolState :=
  if amountSpecified = -(2 ^ 255 : ℤ) then Except.error "arithmetic overflow"
  else
    let swapAmount := amountSpecified.natAbs
    let s1 :=
      if getLargeSwapThreshold s < swapAmount then
        { s with idlePositions := recallLoop swapAmount 0 s.idlePositions }
      else s
    if s1.poolVolume + swapAmount < UINT256_BOUND then
      Except.ok
        { s1 with
          poolVolume := s1.poolVolume + swapAmount
          lastVolumeCheck := ts }
    else Except.error "arithmetic overflow"

/-- `calculateInvestmentAmount(totalDeposit, userAllocationPercent)` from the
idle-liquidity manager: caps the percentage at 5000 (50%) and returns
`totalDeposit * percent / 10000`.  Deposits are sums of token balances, hence
naturals; `bigint` multiplication and division of naturals agree with `ℕ`. -/
def calculateInvestmentAmount (totalDeposit userAllocationPercent : ℕ) : ℕ :=
  let p := if userAllocationPercent > 5000 then 5000 else userAllocationPercent
  totalDeposit * p / 10000

/-- Transaction-boundary semantics: an operation that reverts leaves the
pre-transaction state observable. -/
def applyTx (f : HookPoolState → Except String HookPoolState)
    (s : HookPoolState) : HookPoolState :=
  match f s with
  | Except.ok s' => s'
  | Except.error _ => s

/-! ## C5: the allocation cap -/

/-- Helper: `min` form of the percentage clamp. -/
theorem calculateInvestmentAmount_eq (total percent : ℕ) :
    calculateInvestmentAmount total percent = total * min percent 5000 / 10000 := by
  unfold calculateInvestmentAmount
  rcases le_or_lt percent 5000 with h | h
  · simp [Nat.not_lt.mpr h, min_eq_left h]
  · simp [h, min_eq_right h.le]

/-- C5: `capInvestmentAmount(total, percent)` equals
`total * min(percent, 5000) / 10000` (integer division), never exceeds
`total / 2`, and on the concrete over-limit scenario
`(10^18, 7000)` returns `5 * 10^17` — the percentage is clamped, not
rejected. -/
theorem C5_allocation_cap :
    (∀ total percent : ℕ,
        calculateInvestmentAmount total percent =
          total * min percent 5000 / 10000) ∧
    (∀ total percent : ℕ,
        calculateInvestmentAmount total percent ≤ total / 2) ∧
    calculateInvestmentAmount 1000000000000000000 7000 = 500000000000000000 := by
  refine ⟨calculateInvestmentAmount_eq, fun total percent => ?_, by norm_num [calculateInvestmentAmount]⟩
  rw [calculateInvestmentAmount_eq]
  have h1 : total * min percent 5000 ≤ total * 5000 :=
    Nat.mul_le_mul_left total (min_le_right _ _)
  calc total * min percent 5000 / 10000
      ≤ total * 5000 / 10000 := Nat.div_le_div_right h1
    _ = 5000 * total / (5000 * 2) := by ring_nf
    _ = total / 2 := Nat.mul_div_mul_left total 2 (by norm_num)

/-! ## C1: ledger conservation is broken by the just-in-time recall -/

/-- C1 (code bug): starting from a fresh pool, `investIdleLiquidity` of 100
followed by a `beforeSwap` of magnitude 50 (above the large-swap threshold,
which is 0 here) leaves `totalInvestedAmount = 100` while the idle positions
sum to 50: `_recallLiquidityFromYield` decrements the position amounts but
never decrements `totalInvestedAmount`, so the tracked running sum no longer
equals the sum of the `IdlePosition` amounts. -/
theorem C1_recall_breaks_ledger_conservation :
    ∃ s1 s2 : HookPoolState,
      investIdleLiquidity 1 100 2 0 ⟨[], 0, 0, 0, 0⟩ = Except.ok s1 ∧
      beforeSwap (-50) 1 s1 = Except.ok s2 ∧
      s2.totalInvestedAmount = 100 ∧
      sumAmounts s2.idlePositions = 50 ∧
      s2.totalInvestedAmount ≠ sumAmounts s2.idlePositions := by
  exact ⟨⟨[⟨2, 1, 100, 0⟩], 0, 0, 0, 100⟩, ⟨[⟨2, 1, 50, 0⟩], 0, 1, 50, 100⟩,
    rfl, rfl, rfl, rfl, by decide⟩

/-! ## C4: just-in-time recall in the before-swap hook -/

/-- Specification-level drain in storage-array index order: walk the position
array from index 0, fully draining each entry until the required amount is
covered, partially draining the entry that holds more than the remainder
needed.  Note this is NOT an oldest-first drain: index order coincides with
age order only until a full withdrawal's swap-with-last removal
(`withdrawInvestedLiquidity`) reorders the array — see
`C4_recall_not_oldest_first`. -/
def drainPositionsInOrder (required : ℕ) : List IdlePosition → List IdlePosition
  | [] => []
  | p :: ps =>
    if p.amount ≤ required then
      { p with amount := 0 } :: drainPositionsInOrder (required - p.amount) ps
    else
      { p with amount := p.amount - required } :: ps

theorem recallLoop_of_le (req rec : ℕ) (l : List IdlePosition) (h : req ≤ rec) :
    recallLoop req rec l = l := by
  cases l with
  | nil => rfl
  | cons p ps => simp [recallLoop, Nat.not_lt.mpr h]

theorem drainPositionsInOrder_zero (l : List IdlePosition) :
    drainPositionsInOrder 0 l = l := by
  induction l with
  | nil => rfl
  | cons p ps ih =>
    by_cases h : p.amount ≤ 0
    · have h0 : p.amount = 0 := Nat.le_zero.mp h
      simp only [drainPositionsInOrder, if_pos h, h0, Nat.sub_zero, ih]
      cases p
      simp_all
    · simp only [drainPositionsInOrder, if_neg h, Nat.sub_zero]

theorem recallLoop_eq_drain (l : List IdlePosition) (req rec : ℕ) (h : rec ≤ req) :
    recallLoop req rec l = drainPositionsInOrder (req - rec) l := by
  induction l generalizing rec with
  | nil => rfl
  | cons p ps ih =>
    rcases eq_or_lt_of_le h with heq | hlt
    · subst heq
      rw [recallLoop_of_le _ _ _ le_rfl, Nat.sub_self, drainPositionsInOrder_zero]
    · by_cases hcase : req < rec + p.amount
      · have hgt : ¬ p.amount ≤ req - rec := by omega
        have h1 : rec + (req - rec) = req := by omega
        simp only [recallLoop, if_pos hlt, if_pos hcase, drainPositionsInOrder, if_neg hgt,
          h1, recallLoop_of_le req req ps le_rfl]
      · have hle : p.amount ≤ req - rec := by omega
        have h2 : req - rec - p.amount = req - (rec + p.amount) := by omega
        simp only [recallLoop, if_pos hlt, if_neg hcase, drainPositionsInOrder, if_pos hle,
          ih (rec + p.amount) (by omega), h2, Nat.sub_self]

theorem sumAmounts_nil : sumAmounts [] = 0 := rfl

theorem sumAmounts_cons (p : IdlePosition) (ps : List IdlePosition) :
    sumAmounts (p :: ps) = p.amount + sumAmounts ps := by
  simp [sumAmounts]

theorem sumAmounts_drain (l : List IdlePosition) (req : ℕ) :
    sumAmounts (drainPositionsInOrder req l) = sumAmounts l - min req (sumAmounts l) := by
  induction l generalizing req with
  | nil => simp [drainPositionsInOrder, sumAmounts]
  | cons p ps ih =>
    by_cases h : p.amount ≤ req
    · simp only [drainPositionsInOrder, if_pos h, sumAmounts_cons, ih]
      omega
    · simp only [drainPositionsInOrder, if_neg h, sumAmounts_cons]
      omega

/-- C4 (amended): for every pool state and swap, `beforeSwap` (given
int256-representable `amountSpecified` and no volume-counter overflow)
succeeds; it always adds the requested magnitude to the pool's cumulative
volume counter and stamps the given time as last-checked; when the magnitude
strictly exceeds the derived large-swap threshold (`volumeThreshold / 10`) it
first recalls invested idle capital up to the required amount by draining
positions in storage-array index order (`drainPositionsInOrder`) — not
oldest-first, since `withdrawInvestedLiquidity`'s swap-with-last removal can
reorder the array (see `C4_recall_not_oldest_first`) — partially draining the
position that holds more than the remainder needed, and recalling
`min(required, total idle)` in total; otherwise the positions are
untouched. -/
theorem C4_beforeSwap_jit_recall (s : HookPoolState) (amountSpecified : ℤ) (ts : ℕ)
    (hlo : -(2 ^ 255 : ℤ) < amountSpecified) (hhi : amountSpecified < 2 ^ 255)
    (hvol : s.poolVolume + amountSpecified.natAbs < UINT256_BOUND) :
    ∃ s', beforeSwap amountSpecified ts s = Except.ok s' ∧
      s'.poolVolume = s.poolVolume + amountSpecified.natAbs ∧
      s'.lastVolumeCheck = ts ∧
      s'.totalInvestedAmount = s.totalInvestedAmount ∧
      s'.volumeThreshold = s.volumeThreshold ∧
      (amountSpecified.natAbs ≤ getLargeSwapThreshold s →
        s'.idlePositions = s.idlePositions) ∧
      (getLargeSwapThreshold s < amountSpecified.natAbs →
        s'.idlePositions = drainPositionsInOrder amountSpecified.natAbs s.idlePositions ∧
        sumAmounts s.idlePositions - sumAmounts s'.idlePositions =
          min amountSpecified.natAbs (sumAmounts s.idlePositions)) := by
  have hne : amountSpecified ≠ -(2 ^ 255 : ℤ) := by omega
  by_cases hth : getLargeSwapThreshold s < amountSpecified.natAbs
  · refine ⟨{ s with
        idlePositions := recallLoop amountSpecified.natAbs 0 s.idlePositions
        poolVolume := s.poolVolume + amountSpecified.natAbs
        lastVolumeCheck := ts }, ?_, rfl, rfl, rfl, rfl, ?_, ?_⟩
    · simp only [beforeSwap, if_neg hne, if_pos hth, if_pos hvol]
    · intro hle; omega
    · intro _
      rw [recallLoop_eq_drain _ _ _ (Nat.zero_le _), Nat.sub_zero]
      refine ⟨rfl, ?_⟩
      rw [sumAmounts_drain]
      omega
  · refine ⟨{ s with
        poolVolume := s.poolVolume + amountSpecified.natAbs
        lastVolumeCheck := ts }, ?_, rfl, rfl, rfl, rfl, fun _ => rfl, ?_⟩
    · simp only [beforeSwap, if_neg hne, if_neg hth, if_pos hvol]
    · intro hgt; omega

/-- Witness for C4 at a concrete pool state and swap. -/
theorem C4_beforeSwap_jit_recall_witness :
    (-(2 ^ 255 : ℤ) < -50) ∧ ((-50 : ℤ) < 2 ^ 255) ∧
    ((⟨[⟨2, 1, 100, 0⟩], 0, 0, 0, 100⟩ : HookPoolState).poolVolume +
        (-50 : ℤ).natAbs < UINT256_BOUND) ∧
    (∃ s', beforeSwap (-50) 1 ⟨[⟨2, 1, 100, 0⟩], 0, 0, 0, 100⟩ = Except.ok s' ∧
      s'.poolVolume = (⟨[⟨2, 1, 100, 0⟩], 0, 0, 0, 100⟩ : HookPoolState).poolVolume +
        (-50 : ℤ).natAbs ∧
      s'.lastVolumeCheck = 1 ∧
      s'.totalInvestedAmount = 100 ∧
      s'.volumeThreshold = 0 ∧
      ((-50 : ℤ).natAbs ≤ getLargeSwapThreshold ⟨[⟨2, 1, 100, 0⟩], 0, 0, 0, 100⟩ →
        s'.idlePositions = [⟨2, 1, 100, 0⟩]) ∧
      (getLargeSwapThreshold ⟨[⟨2, 1, 100, 0⟩], 0, 0, 0, 100⟩ < (-50 : ℤ).natAbs →
        s'.idlePositions = drainPositionsInOrder (-50 : ℤ).natAbs [⟨2, 1, 100, 0⟩] ∧
        sumAmounts [⟨2, 1, 100, 0⟩] - sumAmounts s'.idlePositions =
          min (-50 : ℤ).natAbs (sumAmounts [⟨2, 1, 100, 0⟩]))) := by
  refine ⟨by decide, by decide, by decide, ?_⟩
  have h := C4_beforeSwap_jit_recall ⟨[⟨2, 1, 100, 0⟩], 0, 0, 0, 100⟩ (-50) 1
    (by decide) (by decide) (by decide)
  simpa using h

/-- C4 counterexample: the recall is NOT oldest-first.  Reachable trace
(threshold 0 throughout): invest 10 at time 0, 20 at time 1 and 30 at time 2,
then fully withdraw index 0 — the swap-with-last removal writes the newest
position over index 0, leaving the array `[⟨·,·,30,2⟩, ⟨·,·,20,1⟩]` with the
newest entry first.  A large swap of magnitude 25 then drains 25 from the
newest position (timestamp 2, amount 30 → 5) while the strictly older
position (timestamp 1) keeps its full 20: the entry at index 1 is older than
the one at index 0, its amount is untouched, and the newer entry's amount
strictly decreased — an oldest-first recall would have drained the older
position first. -/
theorem C4_recall_not_oldest_first :
    ∃ s1 s2 s3 s4 s5 : HookPoolState,
      investIdleLiquidity 1 10 2 0 ⟨[], 0, 0, 0, 0⟩ = Except.ok s1 ∧
      investIdleLiquidity 1 20 2 1 s1 = Except.ok s2 ∧
      investIdleLiquidity 1 30 2 2 s2 = Except.ok s3 ∧
      withdrawInvestedLiquidity 0 10 s3 = Except.ok s4 ∧
      beforeSwap (-25) 3 s4 = Except.ok s5 ∧
      s4.idlePositions = [⟨2, 1, 30, 2⟩, ⟨2, 1, 20, 1⟩] ∧
      s5.idlePositions = [⟨2, 1, 5, 2⟩, ⟨2, 1, 20, 1⟩] ∧
      (s5.idlePositions.getD 1 ⟨0, 0, 0, 0⟩).timestamp <
        (s5.idlePositions.getD 0 ⟨0, 0, 0, 0⟩).timestamp ∧
      (s5.idlePositions.getD 1 ⟨0, 0, 0, 0⟩).amount =
        (s4.idlePositions.getD 1 ⟨0, 0, 0, 0⟩).amount ∧
      (s5.idlePositions.getD 0 ⟨0, 0, 0, 0⟩).amount <
        (s4.idlePositions.getD 0 ⟨0, 0, 0, 0⟩).amount := by
  exact ⟨⟨[⟨2, 1, 10, 0⟩], 0, 0, 0, 10⟩,
    ⟨[⟨2, 1, 10, 0⟩, ⟨2, 1, 20, 1⟩], 0, 0, 0, 30⟩,
    ⟨[⟨2, 1, 10, 0⟩, ⟨2, 1, 20, 1⟩, ⟨2, 1, 30, 2⟩], 0, 0, 0, 60⟩,
    ⟨[⟨2, 1, 30, 2⟩, ⟨2, 1, 20, 1⟩], 0, 0, 0, 50⟩,
    ⟨[⟨2, 1, 5, 2⟩, ⟨2, 1, 20, 1⟩], 0, 3, 25, 50⟩,
    rfl, rfl, rfl, rfl, rfl, rfl, rfl, by decide, by decide, by decide⟩

/-! ## C8: withdrawal fails closed and removes exhausted entries -/

theorem get_amount_le_sumAmounts (l : List IdlePosition) (i : ℕ) (h : i < l.length) :
    (l.get ⟨i, h⟩).amount ≤ sumAmounts l := by
  induction l generalizing i with
  | nil => simp at h
  | cons p ps ih =>
    cases i with
    | zero => simp [sumAmounts_cons]
    | succ j =>
      have := ih j (by simpa using h)
      simp only [List.get_cons_succ, sumAmounts_cons] at *
      omega

theorem sumAmounts_set (l : List IdlePosition) (i : ℕ) (h : i < l.length)
    (x : IdlePosition) :
    sumAmounts (l.set i x) + (l.get ⟨i, h⟩).amount = sumAmounts l + x.amount := by
  induction l generalizing i with
  | nil => simp at h
  | cons p ps ih =>
    cases i with
    | zero => simp [sumAmounts_cons]; omega
    | succ j =>
      have := ih j (by simpa using h)
      simp only [List.set_cons_succ, List.get_cons_succ, sumAmounts_cons] at *
      omega

theorem sumAmounts_perm {l l' : List IdlePosition} (h : l.Perm l') :
    sumAmounts l = sumAmounts l' :=
  (h.map IdlePosition.amount).sum_eq

theorem sumAmounts_eraseIdx (l : List IdlePosition) (i : ℕ) (h : i < l.length) :
    sumAmounts (l.eraseIdx i) + (l.get ⟨i, h⟩).amount = sumAmounts l := by
  induction l generalizing i with
  | nil => simp at h
  | cons p ps ih =>
    cases i with
    | zero => simp [List.eraseIdx, sumAmounts_cons]; omega
    | succ j =>
      have := ih j (by simpa using h)
      simp only [List.eraseIdx, List.get_cons_succ, sumAmounts_cons] at *
      omega

/-- Helper for the take-prefix of a `set` past the take bound. -/
theorem take_set_of_le {α : Type} (l : List α) (n i : ℕ) (a : α) (h : n ≤ i) :
    (l.set i a).take n = l.take n := by
  induction l generalizing n i with
  | nil => simp
  | cons x xs ih =>
    cases i with
    | zero =>
      interval_cases n
      simp
    | succ j =>
      cases n with
      | zero => simp
      | succ m => simp [List.set, List.take, ih m j (by omega)]

/-- Swap-with-last removal, index strictly before the last slot: overwriting
slot `i` with the last element and dropping the last slot is a permutation of
erasing slot `i`. -/
theorem set_last_dropLast_perm {α : Type} (l : List α) (i : ℕ) (z : α)
    (h : i + 1 < l.length) :
    ((l.set i (l.getD (l.length - 1) z)).dropLast).Perm (l.eraseIdx i) := by
  induction l generalizing i with
  | nil => simp at h
  | cons a t ih =>
    cases i with
    | zero =>
      have ht : t ≠ [] := by
        cases t
        · simp at h
        · simp
      have hlen : 0 < t.length := List.length_pos.mpr ht
      have hgd : (a :: t).getD ((a :: t).length - 1) z = t.getLast ht := by
        have h1 : (a :: t).length - 1 = (t.length - 1) + 1 := by
          simp [List.length_cons]; omega
        rw [h1, List.getD_cons_succ, List.getD_eq_get t z (by omega),
          List.getLast_eq_get]
      rw [hgd]
      simp only [List.set_cons_zero, List.eraseIdx]
      rw [List.dropLast_cons_of_ne_nil ht]
      have h1 : (t.getLast ht :: t.dropLast).Perm (t.dropLast ++ [t.getLast ht]) :=
        (List.perm_append_singleton _ _).symm
      have h2 : t.dropLast ++ [t.getLast ht] = t := List.dropLast_append_getLast ht
      simpa only [h2] using h1
    | succ j =>
      have hj : j + 1 < t.length := by simpa using h
      have hlen : 0 < t.length := by omega
      have hgd : (a :: t).getD ((a :: t).length - 1) z = t.getD (t.length - 1) z := by
        have h1 : (a :: t).length - 1 = (t.length - 1) + 1 := by
          simp [List.length_cons]; omega
        rw [h1, List.getD_cons_succ]
      rw [hgd]
      simp only [List.set_cons_succ, List.eraseIdx]
      have hne : t.set j (t.getD (t.length - 1) z) ≠ [] := by
        have hpos : 0 < (t.set j (t.getD (t.length - 1) z)).length := by
          rw [List.length_set]; omega
        exact List.length_pos.mp hpos
      rw [List.dropLast_cons_of_ne_nil hne]
      exact (ih j hj).cons a

/-- The full swap-remove shape used by `withdrawInvestedLiquidity` when a
position reaches zero: set slot `i` to the zeroed entry, overwrite slot `i`
with the (possibly just-written) last element, pop; the result is a
permutation of the list with entry `i` erased. -/
theorem withdraw_removal_perm {α : Type} (l : List α) (i : ℕ) (h : i < l.length)
    (z : α) :
    (((l.set i z).set i ((l.set i z).getD ((l.set i z).length - 1) z)).dropLast).Perm
      (l.eraseIdx i) := by
  rw [List.set_set]
  by_cases hl : i + 1 < l.length
  · have hne : l.length - 1 ≠ i := by omega
    have hgd : (l.set i z).getD ((l.set i z).length - 1) z = l.getD (l.length - 1) z := by
      rw [List.length_set, List.getD_eq_get _ z (by rw [List.length_set]; omega),
        List.getD_eq_get _ z (by omega)]
      exact List.get_set_ne (Ne.symm hne) _
    rw [hgd]
    exact set_last_dropLast_perm l i z hl
  · have hi : i = l.length - 1 := by omega
    have hgd : (l.set i z).getD ((l.set i z).length - 1) z = z := by
      rw [List.length_set, List.getD_eq_get _ z (by rw [List.length_set]; omega)]
      have : l.length - 1 = i := hi.symm
      simp [this]
    rw [hgd]
    have hdrop : (l.set i z).dropLast = l.take (l.length - 1) := by
      rw [List.dropLast_eq_take, List.length_set, hi, take_set_of_le l _ _ z le_rfl]
    rw [hdrop, List.eraseIdx_eq_take_drop_succ]
    have h2 : l.length - 1 + 1 = l.length := by omega
    rw [hi, h2, List.drop_length, List.append_nil]

/-- C8: `withdrawInvestedLiquidity` fails closed — an out-of-range index or an
amount above the targeted position's remaining quantity reverts and (by the
transaction boundary) leaves all state unchanged; on success it decrements the
position's quantity and the pool's total invested sum by the amount, and when
the quantity reaches zero the entry is removed (the remaining entries are a
permutation of the original list with entry `i` erased).  The hypothesis
`sumAmounts ≤ totalInvestedAmount` holds in every state reachable by the
contract's operations. -/
theorem C8_withdraw_fails_closed (s : HookPoolState) (i amount : ℕ)
    (hwf : sumAmounts s.idlePositions ≤ s.totalInvestedAmount) :
    (s.idlePositions.length ≤ i →
      withdrawInvestedLiquidity i amount s = Except.error "Invalid position" ∧
      applyTx (withdrawInvestedLiquidity i amount) s = s) ∧
    (∀ h : i < s.idlePositions.length,
      (s.idlePositions.get ⟨i, h⟩).amount < amount →
        withdrawInvestedLiquidity i amount s =
          Except.error "Insufficient invested amount" ∧
        applyTx (withdrawInvestedLiquidity i amount) s = s) ∧
    (∀ h : i < s.idlePositions.length,
      amount ≤ (s.idlePositions.get ⟨i, h⟩).amount →
        ∃ s', withdrawInvestedLiquidity i amount s = Except.ok s' ∧
          s'.totalInvestedAmount = s.totalInvestedAmount - amount ∧
          sumAmounts s'.idlePositions = sumAmounts s.idlePositions - amount ∧
          (amount < (s.idlePositions.get ⟨i, h⟩).amount →
            s'.idlePositions = s.idlePositions.set i
              { s.idlePositions.get ⟨i, h⟩ with
                amount := (s.idlePositions.get ⟨i, h⟩).amount - amount }) ∧
          (amount = (s.idlePositions.get ⟨i, h⟩).amount →
            s'.idlePositions.Perm (s.idlePositions.eraseIdx i))) := by
  refine ⟨?_, ?_, ?_⟩
  · intro hout
    have hnot : ¬ i < s.idlePositions.length := by omega
    constructor
    · simp only [withdrawInvestedLiquidity, dif_neg hnot]
    · simp only [applyTx, withdrawInvestedLiquidity, dif_neg hnot]
  · intro h hover
    have hnot : ¬ amount ≤ (s.idlePositions.get ⟨i, h⟩).amount := by omega
    constructor
    · simp only [withdrawInvestedLiquidity, dif_pos h, if_neg hnot]
    · simp only [applyTx, withdrawInvestedLiquidity, dif_pos h, if_neg hnot]
  · intro h hle
    have htot : amount ≤ s.totalInvestedAmount :=
      le_trans (le_trans hle (get_amount_le_sumAmounts _ i h)) hwf
    set p := s.idlePositions.get ⟨i, h⟩ with hp
    set updated : IdlePosition := { p with amount := p.amount - amount } with hupd
    set positions1 := s.idlePositions.set i updated with hpos1
    by_cases hz : updated.amount = 0
    · -- full withdrawal: swap-remove
      refine ⟨{ s with
          idlePositions :=
            (positions1.set i (positions1.getD (positions1.length - 1) updated)).dropLast
          totalInvestedAmount := s.totalInvestedAmount - amount }, ?_, rfl, ?_, ?_, ?_⟩
      · simp only [withdrawInvestedLiquidity, dif_pos h, if_pos hle, if_pos htot,
          if_pos hz]
      · have hperm := withdraw_removal_perm s.idlePositions i h updated
        have hsum := sumAmounts_perm hperm
        have herase := sumAmounts_eraseIdx s.idlePositions i h
        rw [← hp] at herase
        have hamt : amount = p.amount := by
          have h0 : p.amount - amount = 0 := by simpa [hupd] using hz
          omega
        simp only [hpos1]
        rw [hsum]
        omega
      · intro hlt
        have : p.amount - amount ≠ 0 := by omega
        exact absurd hz this
      · intro _
        exact withdraw_removal_perm s.idlePositions i h updated
    · -- partial withdrawal
      refine ⟨{ s with
          idlePositions := positions1
          totalInvestedAmount := s.totalInvestedAmount - amount }, ?_, rfl, ?_, ?_, ?_⟩
      · simp only [withdrawInvestedLiquidity, dif_pos h, if_pos hle, if_pos htot,
          if_neg hz]
      · have hset := sumAmounts_set s.idlePositions i h updated
        have hple := get_amount_le_sumAmounts s.idlePositions i h
        rw [← hp] at hset hple
        have hup : updated.amount = p.amount - amount := by rw [hupd]
        simp only [hpos1]
        omega
      · intro _
        rfl
      · intro heq
        have : updated.amount = 0 := by simp [hupd, heq]
        exact absurd this hz

/-- Witness for C8: concrete two-position pool, full withdrawal of entry 0. -/
theorem C8_withdraw_fails_closed_witness :
    (sumAmounts ([⟨2, 1, 100, 0⟩, ⟨3, 1, 40, 1⟩] : List IdlePosition) ≤ 140) ∧
    (∃ s', withdrawInvestedLiquidity 0 100
        ⟨[⟨2, 1, 100, 0⟩, ⟨3, 1, 40, 1⟩], 0, 0, 0, 140⟩ = Except.ok s' ∧
      s'.totalInvestedAmount = 140 - 100 ∧
      sumAmounts s'.idlePositions =
        sumAmounts ([⟨2, 1, 100, 0⟩, ⟨3, 1, 40, 1⟩] : List IdlePosition) - 100 ∧
      (100 < (([⟨2, 1, 100, 0⟩, ⟨3, 1, 40, 1⟩] : List IdlePosition).get
          ⟨0, by decide⟩).amount →
        s'.idlePositions = ([⟨2, 1, 100, 0⟩, ⟨3, 1, 40, 1⟩] : List IdlePosition).set 0
          { ([⟨2, 1, 100, 0⟩, ⟨3, 1, 40, 1⟩] : List IdlePosition).get ⟨0, by decide⟩ with
            amount := (([⟨2, 1, 100, 0⟩, ⟨3, 1, 40, 1⟩] : List IdlePosition).get
              ⟨0, by decide⟩).amount - 100 }) ∧
      (100 = (([⟨2, 1, 100, 0⟩, ⟨3, 1, 40, 1⟩] : List IdlePosition).get
          ⟨0, by decide⟩).amount →
        s'.idlePositions.Perm
          (([⟨2, 1, 100, 0⟩, ⟨3, 1, 40, 1⟩] : List IdlePosition).eraseIdx 0))) := by
  refine ⟨by decide, ?_⟩
  exact (C8_withdraw_fails_closed ⟨[⟨2, 1, 100, 0⟩, ⟨3, 1, 40, 1⟩], 0, 0, 0, 140⟩ 0 100
    (by decide)).2.2 (by decide) (by decide)

/-! ## Solidity: BasketSwapper (C2, basket atomicity)

The contract pulls each input token from the caller, max-approves the router
once per unique token when needed, and calls the router's
`swapExactTokensForTokens` for each leg; any revert (from the token transfer
or from the router: missing pool, slippage floor breached, insufficient
funds) aborts the whole transaction.  The router is left abstract (any
state transformer that may fail); ERC-20 transfers follow the standard
semantics (revert on insufficient balance or allowance, infinite approvals
are not decremented). -/

/-- `type(uint256).max`, the infinite-approval sentinel. -/
def UINT256_MAX : ℕ := 2 ^ 256 - 1

/-- ERC-20 balances and allowances: `balance token holder` and
`allowance token owner spender`. -/
structure ERC20State where
  balance : ℕ → ℕ → ℕ
  allowance : ℕ → ℕ → ℕ → ℕ

/-- Standard `transferFrom(from, to, amount)` on `token`, called by `spender`:
reverts on insufficient balance or allowance; an infinite allowance is not
decremented. -/
def erc20TransferFrom (token source dest spender amt : ℕ) (st : ERC20State) :
    Except String ERC20State :=
  if amt ≤ st.balance token source then
    if amt ≤ st.allowance token source spender then
      let b1 := fun t h =>
        if t = token ∧ h = source then st.balance t h - amt else st.balance t h
      let b2 := fun t h => if t = token ∧ h = dest then b1 t h + amt else b1 t h
      let al := fun t o sp =>
        if t = token ∧ o = source ∧ sp = spender ∧
            st.allowance token source spender ≠ UINT256_MAX then
          st.allowance t o sp - amt
        else st.allowance t o sp
      Except.ok { balance := b2, allowance := al }
    else Except.error "insufficient allowance"
  else Except.error "insufficient balance"

/-- `approve(spender, type(uint256).max)` on `token` by `owner`. -/
def erc20ApproveMax (token owner spender : ℕ) (st : ERC20State) : ERC20State :=
  { st with
    allowance := fun t o sp =>
      if t = token ∧ o = owner ∧ sp = spender then UINT256_MAX
      else st.allowance t o sp }

/-- `struct PoolKey` as passed to the router. -/
structure PoolKeyC where
  currency0 : ℕ
  currency1 : ℕ
  fee : ℕ
  tickSpacing : ℤ
  hooks : ℕ
  deriving DecidableEq, Repr

/-- `struct SwapInput` of `BasketSwapper`. -/
structure SwapInputC where
  token : ℕ
  amountIn : ℕ
  amountOutMin : ℕ
  zeroForOne : Bool
  poolKey : PoolKeyC
  deriving DecidableEq, Repr

/-- The abstract router: `swapExactTokensForTokens(amountIn, amountOutMin,
zeroForOne, poolKey, hookData, receiver, deadline)`.  It may fail for any of
the failure conditions (missing pool, slippage floor breached, insufficient
funds, expired deadline). -/
def RouterModel : Type :=
  SwapInputC → ℕ → ℕ → ERC20State → Except String ERC20State

/-- One loop iteration of `basketSwap`: pull the input token from the caller,
max-approve the router if its current allowance cannot cover the leg, then
invoke the router (output is delivered directly to `receiver`). -/
def runLeg (router : RouterModel) (basketAddr routerAddr sender receiver deadline : ℕ)
    (inp : SwapInputC) (st : ERC20State) : Except String ERC20State := do
  let st1 ← erc20TransferFrom inp.token sender basketAddr basketAddr inp.amountIn st
  let st2 :=
    if st1.allowance inp.token basketAddr routerAddr < inp.amountIn then
      erc20ApproveMax inp.token basketAddr routerAddr st1
    else st1
  router inp receiver deadline st2

/-- The `basketSwap` loop over all legs. -/
def basketSwapGo (router : RouterModel)
    (basketAddr routerAddr sender receiver deadline : ℕ) :
    List SwapInputC → ERC20State → Except String ERC20State
  | [], st => Except.ok st
  | inp :: rest, st =>
    (runLeg router basketAddr routerAddr sender receiver deadline inp st).bind
      (basketSwapGo router basketAddr routerAddr sender receiver deadline rest)

/-- `basketSwap(inputs, receiver, deadline)`. -/
def basketSwap (router : RouterModel)
    (basketAddr routerAddr sender receiver deadline : ℕ)
    (inputs : List SwapInputC) (st : ERC20State) : Except String ERC20State :=
  basketSwapGo router basketAddr routerAddr sender receiver deadline inputs st

/-- Transaction-boundary semantics for the ERC-20 world: a reverted
transaction leaves the pre-transaction state observable. -/
def applyTxE (f : ERC20State → Except String ERC20State) (st : ERC20State) :
    ERC20State :=
  match f st with
  | Except.ok st' => st'
  | Except.error _ => st

/-- Some leg of the basket fails: legs `0..i-1` succeed from the initial state
and leg `i` reverts on the state they produced. -/
def legFails (router : RouterModel)
    (basketAddr routerAddr sender receiver deadline : ℕ)
    (inputs : List SwapInputC) (st : ERC20State) : Prop :=
  ∃ (i : ℕ) (hi : i < inputs.length) (stPre : ERC20State),
    basketSwapGo router basketAddr routerAddr sender receiver deadline
      (inputs.take i) st = Except.ok stPre ∧
    ∃ e, runLeg router basketAddr routerAddr sender receiver deadline
      (inputs.get ⟨i, hi⟩) stPre = Except.error e

theorem basketSwapGo_error_of_legFails (router : RouterModel)
    (basketAddr routerAddr sender receiver deadline : ℕ)
    (inputs : List SwapInputC) (st : ERC20State)
    (h : legFails router basketAddr routerAddr sender receiver deadline inputs st) :
    ∃ e, basketSwapGo router basketAddr routerAddr sender receiver deadline
      inputs st = Except.error e := by
  obtain ⟨i, hi, stPre, hpre, e, herr⟩ := h
  induction inputs generalizing st i with
  | nil => simp at hi
  | cons inp rest ih =>
    cases i with
    | zero =>
      simp only [List.take_zero, basketSwapGo] at hpre
      cases hpre
      refine ⟨e, ?_⟩
      simp only [basketSwapGo, List.get] at herr ⊢
      rw [herr]
      rfl
    | succ j =>
      simp only [List.take_succ_cons, basketSwapGo] at hpre
      cases hleg : runLeg router basketAddr routerAddr sender receiver deadline inp st with
      | error e1 =>
        refine ⟨e1, ?_⟩
        simp only [basketSwapGo, hleg]
        rfl
      | ok st1 =>
        rw [hleg] at hpre
        simp only [Except.bind] at hpre
        obtain ⟨e2, h2⟩ := ih st1 j (by simpa using hi) hpre (by simpa using herr)
        refine ⟨e2, ?_⟩
        simp only [basketSwapGo, hleg]
        simpa [Except.bind] using h2

/-- C2: basket atomicity.  For a basket with at least two legs, if any leg
fails (the router reverts — missing pool, slippage floor breached — or the
token pull reverts — insufficient funds), the whole `basketSwap` transaction
reverts: the observable post-transaction state is the initial state, so no
input asset is debited and no output asset is credited for any leg. -/
theorem C2_basket_atomicity (router : RouterModel)
    (basketAddr routerAddr sender receiver deadline : ℕ)
    (inputs : List SwapInputC) (st : ERC20State)
    (hlen : 2 ≤ inputs.length)
    (hfail : legFails router basketAddr routerAddr sender receiver deadline inputs st) :
    (∃ e, basketSwap router basketAddr routerAddr sender receiver deadline
      inputs st = Except.error e) ∧
    applyTxE (basketSwap router basketAddr routerAddr sender receiver deadline
      inputs) st = st ∧
    (∀ token holder,
      (applyTxE (basketSwap router basketAddr routerAddr sender receiver deadline
        inputs) st).balance token holder = st.balance token holder) := by
  obtain ⟨e, he⟩ := basketSwapGo_error_of_legFails router basketAddr routerAddr
    sender receiver deadline inputs st hfail
  have happ : applyTxE (basketSwap router basketAddr routerAddr sender receiver
      deadline inputs) st = st := by
    simp only [applyTxE, basketSwap, he]
  exact ⟨⟨e, he⟩, happ, fun token holder => by rw [happ]⟩

/-- Concrete initial ERC-20 state for the C2 witness: the caller (address 10)
holds 100 of tokens 1 and 2 and has max-approved the basket contract
(address 99). -/
def stW : ERC20State :=
  { balance := fun t h => if (t = 1 ∨ t = 2) ∧ h = 10 then 100 else 0
    allowance := fun t o sp =>
      if (t = 1 ∨ t = 2) ∧ o = 10 ∧ sp = 99 then UINT256_MAX else 0 }

/-- A router in which every pool is missing: each swap reverts. -/
def routerFailW : RouterModel := fun _ _ _ _ => Except.error "pool not found"

/-- Two-leg basket used by the C2 witness. -/
def inputsW : List SwapInputC :=
  [⟨1, 50, 1, true, ⟨1, 3, 3000, 60, 7⟩⟩, ⟨2, 50, 1, false, ⟨2, 3, 3000, 60, 7⟩⟩]

/-- Witness for C2: a two-leg basket against a router with no pools reverts as
a whole and debits no balance. -/
theorem C2_basket_atomicity_witness :
    2 ≤ inputsW.length ∧
    legFails routerFailW 99 98 10 11 1000 inputsW stW ∧
    ((∃ e, basketSwap routerFailW 99 98 10 11 1000 inputsW stW = Except.error e) ∧
      applyTxE (basketSwap routerFailW 99 98 10 11 1000 inputsW) stW = stW ∧
      (∀ token holder,
        (applyTxE (basketSwap routerFailW 99 98 10 11 1000 inputsW) stW).balance
          token holder = stW.balance token holder)) := by
  have hfail : legFails routerFailW 99 98 10 11 1000 inputsW stW :=
    ⟨0, by decide, stW, rfl, "pool not found", by rfl⟩
  exact ⟨by decide, hfail,
    C2_basket_atomicity routerFailW 99 98 10 11 1000 inputsW stW (by decide) hfail⟩

/-! ## TypeScript quote engine: the string and number model

JS strings are `List Char`; JS numbers are exact rationals (every value the
quote engine manipulates — reference prices and rendered decimal strings —
is exactly representable).  `parseFloat` is modelled on plain decimal
numerals (the only forms the engine produces or the spec discusses);
anything else is `none`, standing for NaN. -/

/-- JS strings, modelled as lists of characters. -/
abbrev Str := List Char

/-- `String.prototype.toUpperCase` on the ASCII identifiers used here. -/
def upperStr (s : Str) : Str := s.map Char.toUpper

/-- `String.prototype.toLowerCase` on the ASCII identifiers used here. -/
def lowerStr (s : Str) : Str := s.map Char.toLower

/-- ASCII decimal digit test. -/
def isDigitChar (c : Char) : Bool := 48 ≤ c.toNat && c.toNat ≤ 57

/-- Numeric value of a big-endian list of decimal digit characters. -/
def parseNatDigits (cs : List Char) : ℕ :=
  cs.foldl (fun a c => 10 * a + (c.toNat - 48)) 0

/-- Unsigned part of the `parseFloat` model: digits, optionally followed by a
dot and fraction digits. -/
def parseAmtBody (sign : ℚ) (body : Str) : Option ℚ :=
  let intCs := body.takeWhile (fun c => c != '.')
  let rest := body.dropWhile (fun c => c != '.')
  if intCs.isEmpty then none
  else if intCs.all isDigitChar then
    let intVal : ℚ := (parseNatDigits intCs : ℕ)
    match rest with
    | [] => some (sign * intVal)
    | _ :: fracCs =>
      if fracCs.all isDigitChar then
        some (sign * (intVal + (parseNatDigits fracCs : ℚ) / 10 ^ fracCs.length))
      else none
  else none

/-- Models JS `parseFloat` on plain decimal numerals
(`[+-]? digits+ (. digits*)?`).  Other inputs give `none` (NaN). -/
def parseAmt (s : Str) : Option ℚ :=
  if s.head? = some '-' then parseAmtBody (-1) s.tail
  else if s.head? = some '+' then parseAmtBody 1 s.tail
  else parseAmtBody 1 s

/-- Little-endian decimal digits of `n` (first argument is fuel, so that the
definition is structural and kernel-evaluable). -/
def natDigitsLE : ℕ → ℕ → List ℕ
  | 0, _ => []
  | _ + 1, 0 => []
  | fuel + 1, n => n % 10 :: natDigitsLE fuel (n / 10)

/-- The character for one decimal digit. -/
def digitChar (d : ℕ) : Char := Char.ofNat (48 + d)

/-- Decimal rendering of a natural number. -/
def natToStr (n : ℕ) : Str :=
  if n = 0 then ['0'] else ((natDigitsLE n n).map digitChar).reverse

/-- JS `Number.prototype.toFixed(d)` on an exact rational: the integer
nearest `q * 10^d` (ties take the larger candidate, which is Mathlib's
`round`), rendered with exactly `d` fraction digits (none when `d = 0`). -/
def toFixedStr (q : ℚ) (d : ℕ) : Str :=
  let n : ℤ := round (q * 10 ^ d)
  let m : ℕ := n.natAbs
  let intPart := m / 10 ^ d
  let fracPart := m % 10 ^ d
  let core :=
    if d = 0 then natToStr intPart
    else natToStr intPart ++ '.' ::
      (List.replicate (d - (natDigitsLE fracPart fracPart).length) '0' ++
        ((natDigitsLE fracPart fracPart).map digitChar).reverse)
  if n < 0 then '-' :: core else core

/-! ### Digit and round-trip lemmas -/

theorem natDigitsLE_lt_ten (fuel n : ℕ) : ∀ x ∈ natDigitsLE fuel n, x < 10 := by
  induction fuel generalizing n with
  | zero => simp [natDigitsLE]
  | succ f ih =>
    cases n with
    | zero => simp [natDigitsLE]
    | succ k =>
      intro x hx
      simp only [natDigitsLE, List.mem_cons] at hx
      rcases hx with h | h
      · subst h; exact Nat.mod_lt _ (by norm_num)
      · exact ih _ x h

theorem natDigitsLE_length_le (fuel n k : ℕ) (h : n < 10 ^ k) :
    (natDigitsLE fuel n).length ≤ k := by
  induction fuel generalizing n k with
  | zero => simp [natDigitsLE]
  | succ f ih =>
    cases n with
    | zero => simp [natDigitsLE]
    | succ m =>
      cases k with
      | zero => simp at h
      | succ j =>
        simp only [natDigitsLE, List.length_cons]
        have hdiv : (m + 1) / 10 < 10 ^ j := by
          rw [Nat.div_lt_iff_lt_mul (by norm_num)]
          calc m + 1 < 10 ^ (j + 1) := h
            _ = 10 ^ j * 10 := by rw [pow_succ]
        exact Nat.succ_le_succ (ih _ _ hdiv)

/-- Value of big-endian digit lists. -/
def natOfDigitsBE (l : List ℕ) : ℕ :=
  l.foldl (fun a d => 10 * a + d) 0

theorem natOfDigitsBE_reverse_natDigitsLE (fuel n : ℕ) (h : n ≤ fuel) :
    natOfDigitsBE ((natDigitsLE fuel n).reverse) = n := by
  induction fuel generalizing n with
  | zero =>
    have : n = 0 := by omega
    simp [this, natDigitsLE, natOfDigitsBE]
  | succ f ih =>
    cases n with
    | zero => simp [natDigitsLE, natOfDigitsBE]
    | succ m =>
      have hdiv : (m + 1) / 10 ≤ f := by
        have := Nat.div_lt_self (Nat.succ_pos m) (by norm_num : (1 : ℕ) < 10)
        omega
      simp only [natDigitsLE, List.reverse_cons, natOfDigitsBE, List.foldl_append]
      have := ih ((m + 1) / 10) hdiv
      simp only [natOfDigitsBE] at this
      rw [this]
      simp only [List.foldl]
      omega

theorem digitChar_toNat (d : ℕ) (h : d < 10) : (digitChar d).toNat = 48 + d := by
  unfold digitChar
  interval_cases d <;> decide

theorem digitChar_isDigit (d : ℕ) (h : d < 10) : isDigitChar (digitChar d) = true := by
  unfold isDigitChar digitChar
  interval_cases d <;> decide

theorem digitChar_ne_dot (d : ℕ) (h : d < 10) : (digitChar d) ≠ '.' := by
  unfold digitChar
  interval_cases d <;> decide

theorem digitChar_ne_minus (d : ℕ) (h : d < 10) : (digitChar d) ≠ '-' := by
  unfold digitChar
  interval_cases d <;> decide

theorem digitChar_ne_plus (d : ℕ) (h : d < 10) : (digitChar d) ≠ '+' := by
  unfold digitChar
  interval_cases d <;> decide

theorem foldl_digitChar_acc (l : List ℕ) (hl : ∀ x ∈ l, x < 10) (a : ℕ) :
    List.foldl (fun x y => 10 * x + ((digitChar y).toNat - 48)) a l =
      List.foldl (fun x y => 10 * x + y) a l := by
  induction l generalizing a with
  | nil => rfl
  | cons d t ih =>
    simp only [List.foldl]
    rw [digitChar_toNat d (hl d (by simp))]
    have hx : 48 + d - 48 = d := by omega
    rw [hx]
    exact ih (fun x hx => hl x (by simp [hx])) _

theorem parseNatDigits_map_digitChar (l : List ℕ) (hl : ∀ x ∈ l, x < 10) :
    parseNatDigits (l.map digitChar) = natOfDigitsBE l := by
  unfold parseNatDigits natOfDigitsBE
  rw [List.foldl_map]
  exact foldl_digitChar_acc l hl 0


theorem natToStr_shape (n : ℕ) :
    ∃ l : List ℕ, (∀ x ∈ l, x < 10) ∧ natToStr n = l.map digitChar ∧
      natOfDigitsBE l = n ∧ l ≠ [] := by
  by_cases h : n = 0
  · subst h
    refine ⟨[0], by simp, ?_, by simp [natOfDigitsBE], by simp⟩
    have h0 : digitChar 0 = '0' := by decide
    simp [natToStr, h0]
  · refine ⟨(natDigitsLE n n).reverse, ?_, ?_, ?_, ?_⟩
    · intro x hx
      exact natDigitsLE_lt_ten n n x (List.mem_reverse.mp hx)
    · simp [natToStr, h, List.map_reverse]
    · exact natOfDigitsBE_reverse_natDigitsLE n n le_rfl
    · intro hcon
      have h2 : natDigitsLE n n = [] := by simpa using hcon
      cases hn : n with
      | zero => exact h hn
      | succ k =>
        rw [hn] at h2
        simp [natDigitsLE] at h2

theorem parseNatDigits_natToStr (n : ℕ) : parseNatDigits (natToStr n) = n := by
  obtain ⟨l, hlt, heq, hval, _⟩ := natToStr_shape n
  rw [heq, parseNatDigits_map_digitChar l hlt, hval]

theorem natToStr_ne_nil (n : ℕ) : natToStr n ≠ [] := by
  obtain ⟨l, _, heq, _, hne⟩ := natToStr_shape n
  rw [heq]
  simpa using hne

theorem natToStr_all_digits (n : ℕ) : ∀ c ∈ natToStr n, isDigitChar c = true := by
  obtain ⟨l, hlt, heq, _, _⟩ := natToStr_shape n
  rw [heq]
  intro c hc
  obtain ⟨d, hd, rfl⟩ := List.mem_map.mp hc
  exact digitChar_isDigit d (hlt d hd)

theorem natToStr_no_dot (n : ℕ) : ∀ c ∈ natToStr n, (c != '.') = true := by
  obtain ⟨l, hlt, heq, _, _⟩ := natToStr_shape n
  rw [heq]
  intro c hc
  obtain ⟨d, hd, rfl⟩ := List.mem_map.mp hc
  simpa using digitChar_ne_dot d (hlt d hd)

theorem natToStr_head_no_sign (n : ℕ) :
    (natToStr n).head? ≠ some '-' ∧ (natToStr n).head? ≠ some '+' := by
  obtain ⟨l, hlt, heq, _, hne⟩ := natToStr_shape n
  rw [heq]
  cases l with
  | nil => simp at hne
  | cons d t =>
    have hd : d < 10 := hlt d (by simp)
    constructor
    · simpa using digitChar_ne_minus d hd
    · simpa using digitChar_ne_plus d hd

theorem parseNatDigits_replicate_zero (k : ℕ) (cs : List Char) :
    parseNatDigits (List.replicate k '0' ++ cs) = parseNatDigits cs := by
  induction k with
  | zero => simp
  | succ j ih =>
    simp only [List.replicate_succ, List.cons_append, parseNatDigits, List.foldl] at *
    simpa using ih

theorem takeWhile_append_all {α : Type} (p : α → Bool) (l1 l2 : List α)
    (h : ∀ x ∈ l1, p x = true) :
    (l1 ++ l2).takeWhile p = l1 ++ l2.takeWhile p := by
  induction l1 with
  | nil => simp
  | cons x t ih =>
    simp [List.takeWhile_cons, h x (by simp), ih (fun y hy => h y (by simp [hy]))]

theorem dropWhile_append_all {α : Type} (p : α → Bool) (l1 l2 : List α)
    (h : ∀ x ∈ l1, p x = true) :
    (l1 ++ l2).dropWhile p = l2.dropWhile p := by
  induction l1 with
  | nil => simp
  | cons x t ih =>
    simp [List.dropWhile_cons, h x (by simp), ih (fun y hy => h y (by simp [hy]))]

/-- Parsing an `intDigits.fracDigits` shape recovers its decimal value. -/
theorem parseAmtBody_shape (sign : ℚ) (ics fcs : List Char) (hne : ics ≠ [])
    (hich : ∀ c ∈ ics, isDigitChar c = true)
    (hidot : ∀ c ∈ ics, (c != '.') = true)
    (hfall : ∀ c ∈ fcs, isDigitChar c = true) :
    parseAmtBody sign (ics ++ '.' :: fcs) =
      some (sign * ((parseNatDigits ics : ℚ) +
        (parseNatDigits fcs : ℚ) / 10 ^ fcs.length)) := by
  have htake : (ics ++ '.' :: fcs).takeWhile (fun c => c != '.') = ics := by
    rw [takeWhile_append_all _ _ _ hidot]
    simp [List.takeWhile_cons]
  have hdrop : (ics ++ '.' :: fcs).dropWhile (fun c => c != '.') = '.' :: fcs := by
    rw [dropWhile_append_all _ _ _ hidot]
    simp [List.dropWhile_cons]
  have hie : ics.isEmpty = false := by
    cases ics with
    | nil => exact absurd rfl hne
    | cons c t => rfl
  have hall : ics.all isDigitChar = true := List.all_eq_true.mpr hich
  have hfrac : fcs.all isDigitChar = true := List.all_eq_true.mpr hfall
  simp [parseAmtBody, htake, hdrop, hie, hall, hfrac]

/-- Re-parsing a rendered fixed-point value recovers exactly the quantized
rational: `parseFloat` of `toFixed` output is the rounded value. -/
theorem parseAmt_toFixedStr (q : ℚ) (d : ℕ) (hq : 0 ≤ q) (hd : 1 ≤ d) :
    parseAmt (toFixedStr q d) =
      some (((round (q * 10 ^ d) : ℤ) : ℚ) / 10 ^ d) := by
  have hn : 0 ≤ round (q * 10 ^ d) := by
    rw [round_eq]
    apply Int.floor_nonneg.mpr
    positivity
  have hnotlt : ¬ round (q * 10 ^ d) < 0 := not_lt.mpr hn
  have hd0 : d ≠ 0 := by omega
  set m : ℕ := (round (q * 10 ^ d)).natAbs with hm
  have hcast : ((m : ℤ)) = round (q * 10 ^ d) := Int.natAbs_of_nonneg hn
  have hfrac_lt : m % 10 ^ d < 10 ^ d := Nat.mod_lt _ (by positivity)
  have hlen : (natDigitsLE (m % 10 ^ d) (m % 10 ^ d)).length ≤ d :=
    natDigitsLE_length_le _ _ _ hfrac_lt
  -- the rendered string
  have hrender : toFixedStr q d =
      natToStr (m / 10 ^ d) ++ '.' ::
        (List.replicate (d - (natDigitsLE (m % 10 ^ d) (m % 10 ^ d)).length) '0' ++
          ((natDigitsLE (m % 10 ^ d) (m % 10 ^ d)).map digitChar).reverse) := by
    simp only [toFixedStr, ← hm, if_neg hnotlt, if_neg hd0]
  set fracCs : List Char :=
    List.replicate (d - (natDigitsLE (m % 10 ^ d) (m % 10 ^ d)).length) '0' ++
      ((natDigitsLE (m % 10 ^ d) (m % 10 ^ d)).map digitChar).reverse with hfracCs
  have hfrac_all : ∀ c ∈ fracCs, isDigitChar c = true := by
    intro c hc
    rw [hfracCs] at hc
    rcases List.mem_append.mp hc with h1 | h1
    · have := List.eq_of_mem_replicate h1
      subst this
      decide
    · obtain ⟨x, hx, rfl⟩ := List.mem_map.mp (List.mem_reverse.mp h1)
      exact digitChar_isDigit x (natDigitsLE_lt_ten _ _ x hx)
  have hfrac_len : fracCs.length = d := by
    rw [hfracCs]
    simp only [List.length_append, List.length_replicate, List.length_reverse,
      List.length_map]
    omega
  have hfrac_val : parseNatDigits fracCs = m % 10 ^ d := by
    rw [hfracCs, parseNatDigits_replicate_zero, ← List.map_reverse,
      parseNatDigits_map_digitChar _
        (fun x hx => natDigitsLE_lt_ten _ _ x (List.mem_reverse.mp hx)),
      natOfDigitsBE_reverse_natDigitsLE _ _ le_rfl]
  -- run the parser on the rendered shape
  rw [hrender]
  have hhead : (natToStr (m / 10 ^ d) ++ '.' :: fracCs).head? =
      (natToStr (m / 10 ^ d)).head? := by
    cases hns : natToStr (m / 10 ^ d) with
    | nil => exact absurd hns (natToStr_ne_nil _)
    | cons c t => simp
  have hsign := natToStr_head_no_sign (m / 10 ^ d)
  unfold parseAmt
  rw [hhead, if_neg hsign.1, if_neg hsign.2,
    parseAmtBody_shape 1 _ _ (natToStr_ne_nil _) (natToStr_all_digits _)
      (natToStr_no_dot _) hfrac_all,
    parseNatDigits_natToStr, hfrac_val, hfrac_len]
  congr 1
  rw [one_mul, ← hcast]
  have h0 : 10 ^ d * (m / 10 ^ d) + m % 10 ^ d = m := Nat.div_add_mod m (10 ^ d)
  have hdm : ((10 : ℚ) ^ d) * ((m / 10 ^ d : ℕ) : ℚ) + ((m % 10 ^ d : ℕ) : ℚ) =
      (m : ℚ) := by
    exact_mod_cast congrArg (fun k : ℕ => (k : ℚ)) h0
  have hpow : ((10 : ℚ) ^ d) ≠ 0 := by positivity
  field_simp
  linarith [hdm]

/-! ## The token table and the quote engine (`tokens.ts`, `quote.ts`) -/

/-- Symbol "USDT". -/
def strUSDT : Str := "USDT".data

/-- Symbol "USDC". -/
def strUSDC : Str := "USDC".data

/-- Symbol "WETH". -/
def strWETH : Str := "WETH".data

/-- Symbol "WBTC". -/
def strWBTC : Str := "WBTC".data

/-- Symbol "DAI". -/
def strDAI : Str := "DAI".data

/-- One entry of `TOKENS_BASE_SEPOLIA` (the `logo` URL is irrelevant to any
claim and omitted). -/
structure TokenInfo where
  symbol : Str
  address : Str
  decimals : ℕ
  deriving DecidableEq, Repr

/-- `TOKENS_BASE_SEPOLIA` from `lib/constants/tokens.ts`. -/
def TOKENS_BASE_SEPOLIA : List TokenInfo :=
  [⟨strUSDT, "0x1483d7bfAB636450b88AB4A75fAcF14e589496a8".data, 6⟩,
   ⟨strUSDC, "0xBfcf6CF03805BD5Ef13a0F0665262C434832b7FE".data, 6⟩,
   ⟨strWETH, "0x7CC14257d013286c203ae9378f4EEabFf713B717".data, 18⟩,
   ⟨strWBTC, "0x5c54bA14856203213D85428C6F61405BDb39D52c".data, 8⟩,
   ⟨strDAI, "0xB47200B29aD83878264af21e9232C174BAceaD7A".data, 18⟩]

/-- `getTokenBySymbol(symbol)`: first entry whose symbol matches
case-insensitively. -/
def getTokenBySymbol (symbol : Str) : Option TokenInfo :=
  TOKENS_BASE_SEPOLIA.find? (fun t => upperStr t.symbol == upperStr symbol)

/-- `getPriceInUsdt(symbol)`: the static `TOKEN_PRICES_USDT` table keyed by
the upper-cased symbol, `0` when the key is missing.  The JS numbers
`1, 1.0007, 2104, 70230, 1.0006` are exactly representable and modelled by
the same rationals. -/
def getPriceInUsdt (symbol : Str) : ℚ :=
  let k := upperStr symbol
  if k = strUSDT then 1
  else if k = strUSDC then 10007 / 10000
  else if k = strWETH then 2104
  else if k = strWBTC then 70230
  else if k = strDAI then 10006 / 10000
  else 0

/-- `outputToken?.decimals ?? 18` in `getQuote`. -/
def decimalsOf (sym : Str) : ℕ :=
  match getTokenBySymbol sym with
  | some t => t.decimals
  | none => 18

/-- `getQuote(inputSymbol, inputAmount, outputSymbol)` from `quote.ts`:
parses the amount (sentinel `"0"` on NaN or a non-positive value), looks up
both reference prices (sentinel `"0"` when either is missing, i.e. `0`),
converts through USDT value, and renders with
`toFixed(min(outputDecimals, 8))`. -/
def getQuote (inputSymbol inputAmount outputSymbol : Str) : Str :=
  match parseAmt inputAmount with
  | none => ['0']
  | some amount =>
    if amount ≤ 0 then ['0']
    else
      let inputPrice := getPriceInUsdt inputSymbol
      let outputPrice := getPriceInUsdt outputSymbol
      if inputPrice = 0 ∨ outputPrice = 0 then ['0']
      else
        let valueInUsdt := amount * inputPrice
        let outputAmount := valueInUsdt / outputPrice
        toFixedStr outputAmount (min (decimalsOf outputSymbol) 8)

/-- The hop loop of `getQuoteForPath`: chain `getQuote` over consecutive
path elements, returning `"0"` as soon as a hop yields `"0"`. -/
def chainQuote : List Str → Str → Str
  | a :: b :: rest, amt =>
    let amt1 := getQuote a amt b
    if amt1 = ['0'] then ['0'] else chainQuote (b :: rest) amt1
  | _, amt => amt

/-- `getQuoteForPath(path, amountIn)`: the input string is returned unchanged
for paths of fewer than two elements; otherwise the hops are chained. -/
def getQuoteForPath (path : List Str) (amountIn : Str) : Str :=
  if path.length < 2 then amountIn else chainQuote path amountIn

/-! ## The pool table and the path selector (`swap.ts`, `swap-path.ts`) -/

/-- JS string `<` on UTF-16 code units (all identifiers here are ASCII). -/
def strLt : Str → Str → Bool
  | [], [] => false
  | [], _ :: _ => true
  | _ :: _, [] => false
  | a :: as, b :: bs =>
    if a.toNat < b.toNat then true
    else if b.toNat < a.toNat then false
    else strLt as bs

/-- `POOL_PAIRS` from `lib/constants/swap.ts` (keys alphabetically sorted). -/
def POOL_PAIRS : List Str :=
  ["DAI-USDT".data, "USDC-USDT".data, "USDT-WBTC".data, "USDT-WETH".data,
   "WBTC-WETH".data]

/-- `HOOKS_ADDRESS` from `lib/constants/swap.ts`. -/
def HOOKS_ADDRESS : Str := "0x05a6b10faaE4C0B687a160Ffb1848EF4aE148cC0".data

/-- `PoolKeyStruct` from `lib/constants/swap.ts`. -/
structure PoolKeyStruct where
  currency0 : Str
  currency1 : Str
  fee : ℕ
  tickSpacing : ℕ
  hooks : Str
  deriving DecidableEq, Repr

/-- `getPoolKey(tokenA, tokenB)`: sorts the two upper-cased symbols (JS
two-element `Array.sort`), joins them with `-`, requires the key to be in
`POOL_PAIRS` and both addresses to resolve and not start with `0x0000`;
currencies are ordered by lower-cased address. -/
def getPoolKey (tokenA tokenB : Str) : Option PoolKeyStruct :=
  let ua := upperStr tokenA
  let ub := upperStr tokenB
  let sorted := if strLt ub ua then (ub, ua) else (ua, ub)
  let key := sorted.1 ++ '-' :: sorted.2
  if POOL_PAIRS.contains key then
    match getTokenBySymbol tokenA, getTokenBySymbol tokenB with
    | some ta, some tb =>
      if "0x0000".data.isPrefixOf ta.address ∨
          "0x0000".data.isPrefixOf tb.address then none
      else
        let pair :=
          if strLt (lowerStr ta.address) (lowerStr tb.address) then
            (ta.address, tb.address)
          else (tb.address, ta.address)
        some ⟨pair.1, pair.2, 3000, 60, HOOKS_ADDRESS⟩
    | _, _ => none
  else none

/-- `INTERMEDIATE_CANDIDATES` from `swap-path.ts`. -/
def INTERMEDIATE_CANDIDATES : List Str :=
  [strUSDT, strUSDC, strWETH, strWBTC, strDAI]

/-- `getCandidatePaths(fromSymbol, toSymbol)`: the one-element path when the
symbols coincide; otherwise the direct pair when its pool exists, followed by
`[from, mid, to]` for every intermediate whose two pools exist. -/
def getCandidatePaths (fromSymbol toSymbol : Str) : List (List Str) :=
  let f := upperStr fromSymbol
  let t := upperStr toSymbol
  if f = t then [[f]]
  else
    (if (getPoolKey f t).isSome then [[f, t]] else []) ++
    ((INTERMEDIATE_CANDIDATES.filter (fun mid =>
        !(mid == f) && !(mid == t) &&
        (getPoolKey f mid).isSome && (getPoolKey mid t).isSome)).map
      (fun mid => [f, mid, t]))

/-- `PathChoiceReason` from `swap-path.ts`. -/
inductive PathChoiceReason where
  | direct_pool
  | via_intermediate
  | optimal_by_cost
  deriving DecidableEq, Repr

/-- `SwapPathWithReason` from `swap-path.ts`. -/
structure SwapPathWithReason where
  fromSymbol : Str
  toSymbol : Str
  path : List Str
  reason : PathChoiceReason
  deriving DecidableEq, Repr

/-- `parseFloat(getQuoteForPath(path, amountIn)) || 0`: the estimated output
of a candidate, with NaN coerced to `0`. -/
def candidateOutput (amountIn : Str) (p : List Str) : ℚ :=
  (parseAmt (getQuoteForPath p amountIn)).getD 0

/-- The selection loop of `getPathForPair`: keep the candidate with the
strictly greatest estimated output (first one wins ties). -/
def pickBestLoop (amountIn : Str) (init : List Str × ℚ)
    (rest : List (List Str)) : List Str × ℚ :=
  rest.foldl (fun best p =>
    let out := candidateOutput amountIn p
    if best.2 < out then (p, out) else best) init

/-- `getPathForPair(fromSymbol, toSymbol, amountIn)` from `swap-path.ts`. -/
def getPathForPair (fromSymbol toSymbol amountIn : Str) : SwapPathWithReason :=
  let f := upperStr fromSymbol
  let t := upperStr toSymbol
  if f = t then ⟨f, t, [f], PathChoiceReason.optimal_by_cost⟩
  else
    match getCandidatePaths f t with
    | [] => ⟨f, t, [f, t], PathChoiceReason.optimal_by_cost⟩
    | c :: cs =>
      let best := pickBestLoop amountIn (c, candidateOutput amountIn c) cs
      ⟨f, t, best.1,
        if best.1.length = 2 then PathChoiceReason.direct_pool
        else PathChoiceReason.via_intermediate⟩

/-! ## C10: the trivial route is the identity -/

/-- C10: for any path with fewer than two elements — in particular the
one-element route `getPathForPair` returns when the two symbols coincide —
`getQuoteForPath` returns the input amount string completely unchanged, with
no parsing, no price lookup and no `"0"` sentinel, even for a non-numeric
amount string. -/
theorem C10_trivial_route_identity :
    (∀ (path : List Str) (amountIn : Str), path.length < 2 →
      getQuoteForPath path amountIn = amountIn) ∧
    (∀ sym amountIn : Str,
      (getPathForPair sym sym amountIn).path = [upperStr sym] ∧
      getQuoteForPath (getPathForPair sym sym amountIn).path amountIn = amountIn) := by
  have h1 : ∀ (path : List Str) (amountIn : Str), path.length < 2 →
      getQuoteForPath path amountIn = amountIn := by
    intro path amountIn h
    simp [getQuoteForPath, h]
  refine ⟨h1, fun sym amountIn => ?_⟩
  have hpath : (getPathForPair sym sym amountIn).path = [upperStr sym] := by
    simp [getPathForPair]
  exact ⟨hpath, by rw [hpath]; exact h1 _ _ (by simp)⟩

/-- Witness for C10: a one-element route and a non-numeric amount string. -/
theorem C10_trivial_route_identity_witness :
    ((["USDT".data] : List Str).length < 2) ∧
    getQuoteForPath ["USDT".data] "not a number".data = "not a number".data ∧
    (getPathForPair "usdt".data "usdt".data "xyz".data).path = [upperStr "usdt".data] := by
  refine ⟨by decide, C10_trivial_route_identity.1 _ _ (by decide), ?_⟩
  exact (C10_trivial_route_identity.2 "usdt".data "xyz".data).1

/-! ## C3: route optimality with first-found tie-break -/

theorem charToUpper_idem (c : Char) :
    Char.toUpper (Char.toUpper c) = Char.toUpper c := by
  by_cases h : 97 ≤ c.toNat ∧ c.toNat ≤ 122
  · have hup : Char.toUpper c = Char.ofNat (c.toNat - 32) := by
      simp [Char.toUpper, h.1, h.2]
    rw [hup]
    obtain ⟨h1, h2⟩ := h
    set n := c.toNat with hn
    interval_cases n <;> decide
  · have hup : Char.toUpper c = c := by
      simp only [Char.toUpper]
      rw [if_neg h]
    rw [hup, hup]

theorem upperStr_idem (s : Str) : upperStr (upperStr s) = upperStr s := by
  unfold upperStr
  rw [List.map_map]
  exact List.map_congr_left (fun c _ => charToUpper_idem c)

/-- First maximum of a nonempty list (current best, remaining candidates):
replace the best only on a strictly greater value. -/
def firstArgmax {α : Type} (v : α → ℚ) : α → List α → α
  | b, [] => b
  | b, c :: cs => if v b < v c then firstArgmax v c cs else firstArgmax v b cs

theorem pickBestLoop_eq_firstArgmax (amountIn : Str) (b : List Str)
    (cs : List (List Str)) :
    (pickBestLoop amountIn (b, candidateOutput amountIn b) cs).1 =
      firstArgmax (candidateOutput amountIn) b cs := by
  induction cs generalizing b with
  | nil => rfl
  | cons c cs ih =>
    by_cases h : candidateOutput amountIn b < candidateOutput amountIn c
    · simp only [pickBestLoop, List.foldl, if_pos h, firstArgmax]
      exact ih c
    · simp only [pickBestLoop, List.foldl, if_neg h, firstArgmax]
      exact ih b

theorem firstArgmax_ge {α : Type} (v : α → ℚ) (b : α) (l : List α) :
    v b ≤ v (firstArgmax v b l) ∧ ∀ c ∈ l, v c ≤ v (firstArgmax v b l) := by
  induction l generalizing b with
  | nil => exact ⟨le_rfl, by simp⟩
  | cons c cs ih =>
    by_cases h : v b < v c
    · simp only [firstArgmax, if_pos h]
      refine ⟨(le_of_lt h).trans (ih c).1, ?_⟩
      intro x hx
      rcases List.mem_cons.mp hx with rfl | hx
      · exact (ih x).1
      · exact (ih c).2 x hx
    · simp only [firstArgmax, if_neg h]
      refine ⟨(ih b).1, ?_⟩
      intro x hx
      rcases List.mem_cons.mp hx with rfl | hx
      · exact (not_lt.mp h).trans (ih b).1
      · exact (ih b).2 x hx

theorem firstArgmax_first {α : Type} (v : α → ℚ) (b : α) (l : List α) :
    ∃ l1 l2, b :: l = l1 ++ (firstArgmax v b l) :: l2 ∧
      ∀ c ∈ l1, v c < v (firstArgmax v b l) := by
  induction l generalizing b with
  | nil => exact ⟨[], [], rfl, by simp⟩
  | cons c cs ih =>
    by_cases h : v b < v c
    · simp only [firstArgmax, if_pos h]
      obtain ⟨l1, l2, heq, hlt⟩ := ih c
      refine ⟨b :: l1, l2, by rw [List.cons_append, ← heq], ?_⟩
      intro x hx
      rcases List.mem_cons.mp hx with rfl | hx
      · exact h.trans_le (firstArgmax_ge v c cs).1
      · exact hlt x hx
    · simp only [firstArgmax, if_neg h]
      obtain ⟨l1, l2, heq, hlt⟩ := ih b
      cases l1 with
      | nil =>
        simp only [List.nil_append] at heq
        have hb2 : b = firstArgmax v b cs := by
          have := congrArg List.head? heq
          simpa using this
        refine ⟨[], c :: cs, ?_, by simp⟩
        rw [List.nil_append, ← hb2]
      | cons x tl =>
        simp only [List.cons_append] at heq
        have hbx : b = x := by
          have := congrArg List.head? heq
          simpa using this
        have hcs : cs = tl ++ firstArgmax v b cs :: l2 := by
          have := congrArg List.tail heq
          simpa using this
        subst hbx
        have hgoal : b :: c :: cs = (b :: c :: tl) ++ firstArgmax v b cs :: l2 := by
          conv_lhs => rw [hcs]
          simp
        refine ⟨b :: c :: tl, l2, hgoal, ?_⟩
        intro y hy
        have hbres : v b < v (firstArgmax v b cs) := hlt b (by simp)
        rcases List.mem_cons.mp hy with rfl | hy
        · exact hbres
        rcases List.mem_cons.mp hy with rfl | hy
        · exact (not_lt.mp h).trans_lt hbres
        · exact hlt y (by simp [hy])

/-- C3: route optimality with first-found tie-break.  For distinct
(upper-cased) symbols, the route chosen by `getPathForPair` estimates at
least as much output as every enumerated candidate; the chosen route is the
first candidate to attain the maximum (everything generated before it is
strictly worse); and when a direct pool exists the direct route is the first
generated candidate — hence a direct route wins ties. -/
theorem C3_route_optimality (fromSymbol toSymbol amountIn : Str)
    (hne : upperStr fromSymbol ≠ upperStr toSymbol) :
    (∀ c ∈ getCandidatePaths (upperStr fromSymbol) (upperStr toSymbol),
      candidateOutput amountIn c ≤
        candidateOutput amountIn (getPathForPair fromSymbol toSymbol amountIn).path) ∧
    (getCandidatePaths (upperStr fromSymbol) (upperStr toSymbol) ≠ [] →
      ∃ l1 l2,
        getCandidatePaths (upperStr fromSymbol) (upperStr toSymbol) =
          l1 ++ (getPathForPair fromSymbol toSymbol amountIn).path :: l2 ∧
        ∀ c ∈ l1, candidateOutput amountIn c <
          candidateOutput amountIn (getPathForPair fromSymbol toSymbol amountIn).path) ∧
    ((getPoolKey (upperStr fromSymbol) (upperStr toSymbol)).isSome = true →
      (getCandidatePaths (upperStr fromSymbol) (upperStr toSymbol)).head? =
        some [upperStr fromSymbol, upperStr toSymbol]) := by
  have hif : upperStr (upperStr fromSymbol) = upperStr fromSymbol := upperStr_idem _
  have hit : upperStr (upperStr toSymbol) = upperStr toSymbol := upperStr_idem _
  have hhead3 : (getPoolKey (upperStr fromSymbol) (upperStr toSymbol)).isSome = true →
      (getCandidatePaths (upperStr fromSymbol) (upperStr toSymbol)).head? =
        some [upperStr fromSymbol, upperStr toSymbol] := by
    intro hpool
    simp only [getCandidatePaths, hif, hit, if_neg hne, hpool]
    simp
  refine ⟨?_, ?_, hhead3⟩ <;>
    rcases hc : getCandidatePaths (upperStr fromSymbol) (upperStr toSymbol)
      with _ | ⟨c, cs⟩
  · intro x hx
    simp at hx
  · have hbest : (getPathForPair fromSymbol toSymbol amountIn).path =
        firstArgmax (candidateOutput amountIn) c cs := by
      simp only [getPathForPair, if_neg hne, hc]
      exact pickBestLoop_eq_firstArgmax amountIn c cs
    intro x hx
    rw [hbest]
    rcases List.mem_cons.mp hx with rfl | hx
    · exact (firstArgmax_ge _ x cs).1
    · exact (firstArgmax_ge _ c cs).2 x hx
  · intro hne2
    exact absurd rfl hne2
  · intro _
    have hbest : (getPathForPair fromSymbol toSymbol amountIn).path =
        firstArgmax (candidateOutput amountIn) c cs := by
      simp only [getPathForPair, if_neg hne, hc]
      exact pickBestLoop_eq_firstArgmax amountIn c cs
    rw [hbest]
    exact firstArgmax_first _ c cs

/-! ## C6: what the quote engine actually computes -/

/-- Quantize a rational to `d` fraction digits, rounding to nearest (the
value a `toFixed(d)` string parses back to). -/
def qRound (x : ℚ) (d : ℕ) : ℚ := ((round (x * 10 ^ d) : ℤ) : ℚ) / 10 ^ d

/-- Value-level specification of the chained quote, following the amended
C6: at each hop the value is converted by
`value * priceOf(hopFrom) / priceOf(hopTo)` and quantized to
`min(outputDecimals, 8)` fraction digits (the `toFixed` rendering that the
next hop re-parses); a hop whose input value is non-positive — including a
positive value whose rendering rounded to zero — or whose price is unknown
yields the sentinel `0`. -/
def chainValSpec : List Str → ℚ → ℚ
  | a :: b :: rest, q =>
    if q ≤ 0 then 0
    else if getPriceInUsdt a = 0 ∨ getPriceInUsdt b = 0 then 0
    else
      chainValSpec (b :: rest)
        (qRound (q * getPriceInUsdt a / getPriceInUsdt b) (min (decimalsOf b) 8))
  | _, q => q

theorem getPriceInUsdt_pos (s : Str) (h : getPriceInUsdt s ≠ 0) :
    0 < getPriceInUsdt s := by
  unfold getPriceInUsdt at *
  dsimp only at h ⊢
  split_ifs at * <;> norm_num at *

theorem decimalsOf_ge_six (sym : Str) : 6 ≤ decimalsOf sym := by
  unfold decimalsOf
  cases hfind : getTokenBySymbol sym with
  | none => norm_num
  | some t =>
    unfold getTokenBySymbol at hfind
    have hmem : t ∈ TOKENS_BASE_SEPOLIA := List.mem_of_find?_eq_some hfind
    have hall : ∀ x ∈ TOKENS_BASE_SEPOLIA, 6 ≤ x.decimals := by decide
    exact hall t hmem

theorem qRound_nonneg (x : ℚ) (d : ℕ) (hx : 0 ≤ x) : 0 ≤ qRound x d := by
  unfold qRound
  apply div_nonneg _ (by positivity)
  have : (0 : ℤ) ≤ round (x * 10 ^ d) := by
    rw [round_eq]
    apply Int.floor_nonneg.mpr
    positivity
  exact_mod_cast this

theorem qRound_mono (x1 x2 : ℚ) (d : ℕ) (h : x1 ≤ x2) :
    qRound x1 d ≤ qRound x2 d := by
  unfold qRound
  have hr : round (x1 * 10 ^ d) ≤ round (x2 * 10 ^ d) := by
    rw [round_eq, round_eq]
    apply Int.floor_le_floor
    have hpow : (0 : ℚ) < 10 ^ d := by positivity
    nlinarith
  have hc : ((round (x1 * 10 ^ d) : ℤ) : ℚ) ≤ ((round (x2 * 10 ^ d) : ℤ) : ℚ) := by
    exact_mod_cast hr
  exact (div_le_div_iff_of_pos_right (by positivity)).mpr hc

theorem toFixedStr_two_le_length (q : ℚ) (d : ℕ) (hd : 1 ≤ d) :
    2 ≤ (toFixedStr q d).length := by
  have hd0 : d ≠ 0 := by omega
  have hnat : 1 ≤ (natToStr ((round (q * 10 ^ d)).natAbs / 10 ^ d)).length :=
    List.length_pos.mpr (natToStr_ne_nil _)
  unfold toFixedStr
  dsimp only
  by_cases hn : round (q * 10 ^ d) < 0
  · simp only [if_pos hn, if_neg hd0, List.length_cons, List.length_append]
    omega
  · simp only [if_neg hn, if_neg hd0, List.length_cons, List.length_append]
    omega

theorem toFixedStr_ne_zero_str (q : ℚ) (d : ℕ) (hd : 1 ≤ d) :
    toFixedStr q d ≠ ['0'] := by
  intro h
  have h2 := toFixedStr_two_le_length q d hd
  rw [h] at h2
  simp at h2

theorem parseAmt_zero_str : parseAmt ['0'] = some 0 := by
  simp [parseAmt, parseAmtBody, List.takeWhile, List.dropWhile, parseNatDigits,
    isDigitChar]

theorem getQuote_of_parse_none (a b amt : Str) (h : parseAmt amt = none) :
    getQuote a amt b = ['0'] := by
  unfold getQuote
  rw [h]

theorem getQuote_of_nonpos (a b amt : Str) (q : ℚ) (h : parseAmt amt = some q)
    (hq : q ≤ 0) : getQuote a amt b = ['0'] := by
  unfold getQuote
  rw [h]
  dsimp only
  rw [if_pos hq]

theorem getQuote_of_no_price (a b amt : Str) (q : ℚ) (h : parseAmt amt = some q)
    (hq : ¬ q ≤ 0) (hp : getPriceInUsdt a = 0 ∨ getPriceInUsdt b = 0) :
    getQuote a amt b = ['0'] := by
  unfold getQuote
  rw [h]
  dsimp only
  rw [if_neg hq, if_pos hp]

theorem getQuote_of_ok (a b amt : Str) (q : ℚ) (h : parseAmt amt = some q)
    (hq : 0 < q) (hpa : getPriceInUsdt a ≠ 0) (hpb : getPriceInUsdt b ≠ 0) :
    getQuote a amt b =
      toFixedStr (q * getPriceInUsdt a / getPriceInUsdt b)
        (min (decimalsOf b) 8) := by
  unfold getQuote
  rw [h]
  dsimp only
  rw [if_neg (not_le.mpr hq), if_neg (by push_neg; exact ⟨hpa, hpb⟩)]

theorem chainValSpec_zero (l : List Str) : chainValSpec l 0 = 0 := by
  cases l with
  | nil => rfl
  | cons a t =>
    cases t with
    | nil => rfl
    | cons b r => simp [chainValSpec]

theorem chainValSpec_nonneg (l : List Str) (q : ℚ) (hq : 0 ≤ q) :
    0 ≤ chainValSpec l q := by
  induction l generalizing q with
  | nil => exact hq
  | cons a t ih =>
    cases t with
    | nil => exact hq
    | cons b r =>
      by_cases h0 : q ≤ 0
      · simp [chainValSpec, h0]
      · by_cases hp : getPriceInUsdt a = 0 ∨ getPriceInUsdt b = 0
        · simp [chainValSpec, h0, hp]
        · push_neg at hp
          have hpa := getPriceInUsdt_pos a hp.1
          have hpb := getPriceInUsdt_pos b hp.2
          have hx : 0 ≤ q * getPriceInUsdt a / getPriceInUsdt b :=
            div_nonneg (mul_nonneg hq hpa.le) hpb.le
          simp only [chainValSpec, if_neg h0, if_neg (not_or.mpr hp)]
          exact ih _ (qRound_nonneg _ _ hx)

theorem chainValSpec_mono (l : List Str) (q1 q2 : ℚ) (h0 : 0 ≤ q1)
    (hle : q1 ≤ q2) : chainValSpec l q1 ≤ chainValSpec l q2 := by
  induction l generalizing q1 q2 with
  | nil => exact hle
  | cons a t ih =>
    cases t with
    | nil => exact hle
    | cons b r =>
      by_cases h1 : q1 ≤ 0
      · have hz : chainValSpec (a :: b :: r) q1 = 0 := by simp [chainValSpec, h1]
        rw [hz]
        exact chainValSpec_nonneg _ _ (le_trans h0 hle)
      · have h2 : ¬ q2 ≤ 0 := fun h => h1 (le_trans hle h)
        by_cases hp : getPriceInUsdt a = 0 ∨ getPriceInUsdt b = 0
        · simp [chainValSpec, h1, h2, hp]
        · push_neg at hp
          have hpa := getPriceInUsdt_pos a hp.1
          have hpb := getPriceInUsdt_pos b hp.2
          have hx1 : 0 ≤ q1 * getPriceInUsdt a / getPriceInUsdt b :=
            div_nonneg (mul_nonneg (le_of_lt (not_le.mp h1)) hpa.le) hpb.le
          have hmul : q1 * getPriceInUsdt a ≤ q2 * getPriceInUsdt a :=
            mul_le_mul_of_nonneg_right hle hpa.le
          have hmono : q1 * getPriceInUsdt a / getPriceInUsdt b ≤
              q2 * getPriceInUsdt a / getPriceInUsdt b :=
            (div_le_div_iff_of_pos_right hpb).mpr hmul
          simp only [chainValSpec, if_neg h1, if_neg h2, if_neg (not_or.mpr hp)]
          exact ih _ _ (qRound_nonneg _ _ hx1) (qRound_mono _ _ _ hmono)

/-- Relating the string-level hop chain to the value-level specification. -/
theorem chainQuote_parse (path : List Str) (amtStr : Str) (q : ℚ)
    (hq : parseAmt amtStr = some q) :
    parseAmt (chainQuote path amtStr) = some (chainValSpec path q) := by
  induction path generalizing amtStr q with
  | nil => simpa [chainQuote, chainValSpec] using hq
  | cons a t ih =>
    cases t with
    | nil => simpa [chainQuote, chainValSpec] using hq
    | cons b rest =>
      by_cases h0 : q ≤ 0
      · have hq0 : getQuote a amtStr b = ['0'] := getQuote_of_nonpos a b amtStr q hq h0
        simp [chainQuote, hq0, chainValSpec, h0, parseAmt_zero_str]
      · by_cases hp : getPriceInUsdt a = 0 ∨ getPriceInUsdt b = 0
        · have hq0 : getQuote a amtStr b = ['0'] :=
            getQuote_of_no_price a b amtStr q hq h0 hp
          simp [chainQuote, hq0, chainValSpec, h0, hp, parseAmt_zero_str]
        · push_neg at hp
          have hpa := getPriceInUsdt_pos a hp.1
          have hpb := getPriceInUsdt_pos b hp.2
          have hd : 1 ≤ min (decimalsOf b) 8 := by
            have := decimalsOf_ge_six b
            omega
          have hx : 0 ≤ q * getPriceInUsdt a / getPriceInUsdt b :=
            div_nonneg (mul_nonneg (le_of_lt (not_le.mp h0)) hpa.le) hpb.le
          have hqk : getQuote a amtStr b =
              toFixedStr (q * getPriceInUsdt a / getPriceInUsdt b)
                (min (decimalsOf b) 8) :=
            getQuote_of_ok a b amtStr q hq (not_le.mp h0) hp.1 hp.2
          have hne0 : toFixedStr (q * getPriceInUsdt a / getPriceInUsdt b)
              (min (decimalsOf b) 8) ≠ ['0'] := toFixedStr_ne_zero_str _ _ hd
          have hparse : parseAmt (toFixedStr
              (q * getPriceInUsdt a / getPriceInUsdt b) (min (decimalsOf b) 8)) =
              some (qRound (q * getPriceInUsdt a / getPriceInUsdt b)
                (min (decimalsOf b) 8)) :=
            parseAmt_toFixedStr _ _ hx hd
          have hspec : chainValSpec (a :: b :: rest) q =
              chainValSpec (b :: rest)
                (qRound (q * getPriceInUsdt a / getPriceInUsdt b)
                  (min (decimalsOf b) 8)) := by
            simp [chainValSpec, h0, not_or.mpr hp]
          simp only [chainQuote, hqk, if_neg hne0, hspec]
          exact ih _ _ hparse

/-- C6 (amended): for every route of length ≥ 2, `getQuoteForPath` returns
`"0"` on an unparseable input, and otherwise its output parses exactly to
`chainValSpec`: the chained conversion where each hop computes
`value * priceOf(hopFrom) / priceOf(hopTo)` and rounds it to
`min(outputDecimals, 8)` fraction digits before the next hop re-parses it,
with the `0` sentinel at any hop whose input value is non-positive
(including a positive value whose rendering rounded to zero) or whose price
is unknown. -/
theorem C6_estimate_chained_with_rounding (path : List Str) (amtStr : Str)
    (hlen : 2 ≤ path.length) :
    (parseAmt amtStr = none → getQuoteForPath path amtStr = ['0']) ∧
    (∀ q, parseAmt amtStr = some q →
      parseAmt (getQuoteForPath path amtStr) = some (chainValSpec path q)) := by
  have hnl : ¬ path.length < 2 := by omega
  constructor
  · intro hnone
    cases path with
    | nil => simp at hlen
    | cons a t =>
      cases t with
      | nil => simp at hlen
      | cons b rest =>
        have hq0 : getQuote a amtStr b = ['0'] :=
          getQuote_of_parse_none a b amtStr hnone
        simp [getQuoteForPath, hnl, chainQuote, hq0]
  · intro q hq
    simp only [getQuoteForPath, if_neg hnl]
    exact chainQuote_parse path amtStr q hq

/-- Witness for the amended C6 on the direct USDT→WETH route with input
"100". -/
theorem C6_estimate_chained_with_rounding_witness :
    (2 ≤ ([strUSDT, strWETH] : List Str).length) ∧
    parseAmt "100".data = some 100 ∧
    parseAmt (getQuoteForPath [strUSDT, strWETH] "100".data) =
      some (chainValSpec [strUSDT, strWETH] 100) := by
  have hp : parseAmt "100".data = some 100 := by
    simp +decide [parseAmt, parseAmtBody, List.takeWhile, List.dropWhile,
      parseNatDigits, isDigitChar]
  exact ⟨by simp, hp,
    (C6_estimate_chained_with_rounding [strUSDT, strWETH] "100".data (by simp)).2
      100 hp⟩

/-- C6 counterexample: the claim "returns the string \"0\" whenever any hop's
price is unknown or the input quantity is non-positive or non-finite; it has
no other failure mode" is false as stated: the positive, finite input
`"0.000001"` on the route USDT→WBTC→USDT — all hop prices known and
non-zero — still yields `"0"`, because the first hop's output
(≈ 1.42·10⁻¹¹ WBTC) rounds to `0.00000000` at 8 fraction digits and the
second hop re-parses it as a non-positive amount. -/
theorem C6_zero_without_bad_input :
    getQuoteForPath [strUSDT, strWBTC, strUSDT] "0.000001".data = ['0'] ∧
    parseAmt "0.000001".data = some (1 / 1000000) ∧
    (0 : ℚ) < 1 / 1000000 ∧
    getPriceInUsdt strUSDT ≠ 0 ∧ getPriceInUsdt strWBTC ≠ 0 := by
  have hparse : parseAmt "0.000001".data = some (1 / 1000000) := by
    simp +decide [parseAmt, parseAmtBody, List.takeWhile, List.dropWhile,
      parseNatDigits, isDigitChar]
  have hpU : getPriceInUsdt strUSDT = 1 := by rfl
  have hpW : getPriceInUsdt strWBTC = 70230 := by rfl
  have hdW : decimalsOf strWBTC = 8 := by rfl
  have hq : (0 : ℚ) < 1 / 1000000 := by norm_num
  have h1 : getQuote strUSDT "0.000001".data strWBTC =
      toFixedStr ((1 / 1000000 : ℚ) * getPriceInUsdt strUSDT /
        getPriceInUsdt strWBTC) (min (decimalsOf strWBTC) 8) :=
    getQuote_of_ok _ _ _ _ hparse hq (by rw [hpU]; norm_num)
      (by rw [hpW]; norm_num)
  rw [hpU, hpW, hdW] at h1
  have hmin : min (8 : ℕ) 8 = 8 := by norm_num
  rw [hmin] at h1
  have hX : ((1 / 1000000 : ℚ) * 1 / 70230) = 1 / 70230000000 := by norm_num
  rw [hX] at h1
  have hXnn : (0 : ℚ) ≤ 1 / 70230000000 := by norm_num
  have hne1 : toFixedStr (1 / 70230000000 : ℚ) 8 ≠ ['0'] :=
    toFixedStr_ne_zero_str _ _ (by norm_num)
  have hround : round ((1 / 70230000000 : ℚ) * 10 ^ 8) = 0 := by
    rw [round_eq]
    apply Int.floor_eq_zero_iff.mpr
    constructor <;> norm_num
  have hparse1 : parseAmt (toFixedStr (1 / 70230000000 : ℚ) 8) = some 0 := by
    rw [parseAmt_toFixedStr _ _ hXnn (by norm_num), hround]
    norm_num
  have h2 : getQuote strWBTC (toFixedStr (1 / 70230000000 : ℚ) 8) strUSDT =
      ['0'] := getQuote_of_nonpos _ _ _ 0 hparse1 le_rfl
  refine ⟨?_, hparse, hq, by rw [hpU]; norm_num, by rw [hpW]; norm_num⟩
  have hlen : ¬ ([strUSDT, strWBTC, strUSDT] : List Str).length < 2 := by simp
  simp only [getQuoteForPath, if_neg hlen, chainQuote, h1, if_neg hne1, h2]
  simp

/-! ## C7: quote monotonicity -/

/-- C7: for a fixed route, the (parsed) output of `getQuoteForPath` is
non-decreasing in the (parsed) input quantity, for positive parseable
inputs; routes shorter than two hops return the input unchanged and are
monotone trivially. -/
theorem C7_quote_monotone (path : List Str) (a1 a2 : Str) (q1 q2 : ℚ)
    (h1 : parseAmt a1 = some q1) (h2 : parseAmt a2 = some q2)
    (hpos : 0 < q1) (hle : q1 ≤ q2) :
    (parseAmt (getQuoteForPath path a1)).getD 0 ≤
      (parseAmt (getQuoteForPath path a2)).getD 0 := by
  by_cases hlen : path.length < 2
  · simp only [getQuoteForPath, if_pos hlen, h1, h2, Option.getD_some]
    exact hle
  · have e1 := chainQuote_parse path a1 q1 h1
    have e2 := chainQuote_parse path a2 q2 h2
    simp only [getQuoteForPath, if_neg hlen, e1, e2, Option.getD_some]
    exact chainValSpec_mono path q1 q2 hpos.le hle

/-- Witness for C7: inputs "1" and "2" on the direct USDT→WETH route. -/
theorem C7_quote_monotone_witness :
    parseAmt "1".data = some 1 ∧ parseAmt "2".data = some 2 ∧
    (0 : ℚ) < 1 ∧ (1 : ℚ) ≤ 2 ∧
    (parseAmt (getQuoteForPath [strUSDT, strWETH] "1".data)).getD 0 ≤
      (parseAmt (getQuoteForPath [strUSDT, strWETH] "2".data)).getD 0 := by
  have hp1 : parseAmt "1".data = some 1 := by
    simp +decide [parseAmt, parseAmtBody, List.takeWhile, List.dropWhile,
      parseNatDigits, isDigitChar]
  have hp2 : parseAmt "2".data = some 2 := by
    simp +decide [parseAmt, parseAmtBody, List.takeWhile, List.dropWhile,
      parseNatDigits, isDigitChar]
  exact ⟨hp1, hp2, by norm_num, by norm_num,
    C7_quote_monotone [strUSDT, strWETH] "1".data "2".data 1 2 hp1 hp2
      (by norm_num) (by norm_num)⟩

/-- Witness for C3: WETH→WBTC with input "1"; the direct pool exists and the
via-USDT candidate is enumerated. -/
theorem C3_route_optimality_witness :
    (upperStr "WETH".data ≠ upperStr "WBTC".data) ∧
    (([strWETH, strUSDT, strWBTC] : List Str) ∈
      getCandidatePaths (upperStr "WETH".data) (upperStr "WBTC".data)) ∧
    candidateOutput "1".data [strWETH, strUSDT, strWBTC] ≤
      candidateOutput "1".data
        (getPathForPair "WETH".data "WBTC".data "1".data).path ∧
    (getCandidatePaths (upperStr "WETH".data) (upperStr "WBTC".data)).head? =
      some [upperStr "WETH".data, upperStr "WBTC".data] := by
  have hne : upperStr "WETH".data ≠ upperStr "WBTC".data := by decide
  have h := C3_route_optimality "WETH".data "WBTC".data "1".data hne
  have hmem : ([strWETH, strUSDT, strWBTC] : List Str) ∈
      getCandidatePaths (upperStr "WETH".data) (upperStr "WBTC".data) := by decide
  exact ⟨hne, hmem, h.1 _ hmem, h.2.2 (by decide)⟩

/-! ## C9: the 50:50 rebalancer (`calculate5050Ratio`)

`bigint` values are modelled as `ℤ` with the truncating division `Int.tdiv`
(JS bigint `/`); a division by `0n` throws, modelled by a `none` result.
Addresses are strings compared after `toLowerCase`. -/

/-- `TokenBalance` from the idle-liquidity manager. -/
structure TokenBalanceR where
  token : Str
  amount : ℤ
  deriving DecidableEq, Repr

/-- The two pool currencies of the `PoolKey` used by the rebalancer. -/
structure PoolKeyR where
  currency0 : Str
  currency1 : Str
  deriving DecidableEq, Repr

/-- One scheduled swap `{from, to, amount}` (`from`/`to` renamed, `from` is
a Lean keyword). -/
structure SwapPlan where
  fromAsset : Str
  toAsset : Str
  amount : ℤ
  deriving DecidableEq, Repr

/-- The result record of `calculate5050Ratio`. -/
structure RatioResult where
  amount0 : ℤ
  amount1 : ℤ
  swaps : List SwapPlan
  deriving DecidableEq, Repr

/-- `10n ** 18n`. -/
def E18 : ℤ := 10 ^ 18

/-- `calculate5050Ratio(tokens, poolKey, chainId, currentPrice?)` from the
idle-liquidity manager (`chainId` is unused by the computation).  The
partition loop, the ratio derivation (`currentPrice` falsy — absent or
`0n` — gives `1n`), the value comparison branches with their
available-balance guards, and the half/half split of non-pool tokens follow
the source line by line. -/
def calculate5050Ratio (tokens : List TokenBalanceR) (poolKey : PoolKeyR)
    (currentPrice : Option ℤ) : Option RatioResult :=
  let currency0 := poolKey.currency0
  let currency1 := poolKey.currency1
  let acc := tokens.foldl
    (fun (acc : ℤ × ℤ × List TokenBalanceR) tok =>
      if lowerStr tok.token = lowerStr currency0 then
        (acc.1 + tok.amount, acc.2.1, acc.2.2)
      else if lowerStr tok.token = lowerStr currency1 then
        (acc.1, acc.2.1 + tok.amount, acc.2.2)
      else (acc.1, acc.2.1, acc.2.2 ++ [tok]))
    (0, 0, [])
  let totalCurrency0 := acc.1
  let totalCurrency1 := acc.2.1
  let tokensToSwap := acc.2.2
  let estimatedPriceRatio : ℤ :=
    match currentPrice with
    | some p => if p = 0 then 1 else Int.tdiv (p * p) (2 ^ 192)
    | none => 1
  let currency1Value := Int.tdiv (totalCurrency1 * estimatedPriceRatio) E18
  let totalValue := totalCurrency0 + currency1Value
  let targetValue := Int.tdiv totalValue 2
  let rebal : Option (ℤ × ℤ × List SwapPlan) :=
    if totalCurrency0 < targetValue then
      if estimatedPriceRatio = 0 then none
      else
        let neededCurrency0 := targetValue - totalCurrency0
        let currency1ToSwap := Int.tdiv (neededCurrency0 * E18) estimatedPriceRatio
        if currency1ToSwap ≤ totalCurrency1 then
          some (totalCurrency0 + neededCurrency0, totalCurrency1 - currency1ToSwap,
            [⟨currency1, currency0, currency1ToSwap⟩])
        else some (totalCurrency0, totalCurrency1, [])
    else if totalCurrency1 < targetValue then
      if estimatedPriceRatio = 0 then none
      else
        let neededCurrency1 := targetValue - currency1Value
        let currency0ToSwap := Int.tdiv (neededCurrency1 * E18) estimatedPriceRatio
        if currency0ToSwap ≤ totalCurrency0 then
          some (totalCurrency0 - currency0ToSwap, totalCurrency1 + neededCurrency1,
            [⟨currency0, currency1, currency0ToSwap⟩])
        else some (totalCurrency0, totalCurrency1, [])
    else some (totalCurrency0, totalCurrency1, [])
  rebal.map (fun r =>
    let final := tokensToSwap.foldl
      (fun (st : ℤ × ℤ × List SwapPlan) tok =>
        let halfAmount := Int.tdiv tok.amount 2
        (st.1 + halfAmount, st.2.1 + (tok.amount - halfAmount),
          st.2.2 ++ [⟨tok.token, currency0, halfAmount⟩,
            ⟨tok.token, currency1, tok.amount - halfAmount⟩]))
      (r.1, r.2.1, r.2.2)
    ⟨final.1, final.2.1, final.2.2⟩)

/-- C9 counterexample: with no price supplied and a single holding of 4
units of asset B, the code returns `(amount0 = 0, amount1 = 4, swaps = [])`.
Under the claim's reading — each side valued with a 1:1 default ratio —
side A's value `0` falls short of half the total (`tdiv (0 + 4) 2 = 2 > 0`),
so the claim demands exactly one rebalancing swap; the code schedules none,
because the default ratio `1n` is divided by `10^18`, valuing the 4 units of
B at `tdiv (4 * 1) 10^18 = 0`. -/
theorem C9_no_swap_on_default_ratio :
    calculate5050Ratio [⟨"0xb".data, 4⟩] ⟨"0xa".data, "0xb".data⟩ none =
      some ⟨0, 4, []⟩ ∧
    (0 : ℤ) < Int.tdiv (0 + 4) 2 := by
  constructor
  · decide
  · decide

/-- Modelled from the amended C9 claim's wording: partition the holdings
into side A (the pool's asset A), side B (asset B, tested after A), and
other holdings; value side B as `amountB * ratio / 10^18` where `ratio`
derives from the optional `sqrtPriceX96` as `price^2 / 2^192` and defaults
to `1` when the price is absent or zero (so the default values one unit of
B at 10⁻¹⁸ of A, not 1:1), a zero derived ratio making the branch that
divides by it throw; target half of `valueA + valueB`; schedule at most one
rebalancing swap — B→A of the shortfall-equivalent when side A's value is
below target, or A→B when side B's raw amount is below target, and only
when the computed amount fits the available balance; schedule every other
holding as two swaps, `⌊amount/2⌋` to A and the remainder to B. -/
def spec5050 (tokens : List TokenBalanceR) (poolKey : PoolKeyR)
    (currentPrice : Option ℤ) : Option RatioResult :=
  let c0 := poolKey.currency0
  let c1 := poolKey.currency1
  let sideA := ((tokens.filter
    (fun tok => lowerStr tok.token == lowerStr c0)).map TokenBalanceR.amount).sum
  let sideB := ((tokens.filter (fun tok =>
    !(lowerStr tok.token == lowerStr c0) &&
      (lowerStr tok.token == lowerStr c1))).map TokenBalanceR.amount).sum
  let others := tokens.filter (fun tok =>
    !(lowerStr tok.token == lowerStr c0) && !(lowerStr tok.token == lowerStr c1))
  let ratio : ℤ :=
    match currentPrice with
    | some p => if p = 0 then 1 else Int.tdiv (p * p) (2 ^ 192)
    | none => 1
  let valueB := Int.tdiv (sideB * ratio) E18
  let target := Int.tdiv (sideA + valueB) 2
  let rebal : Option (ℤ × ℤ × List SwapPlan) :=
    if sideA < target then
      if ratio = 0 then none
      else
        let need := target - sideA
        let amt := Int.tdiv (need * E18) ratio
        if amt ≤ sideB then some (sideA + need, sideB - amt, [⟨c1, c0, amt⟩])
        else some (sideA, sideB, [])
    else if sideB < target then
      if ratio = 0 then none
      else
        let need := target - valueB
        let amt := Int.tdiv (need * E18) ratio
        if amt ≤ sideA then some (sideA - amt, sideB + need, [⟨c0, c1, amt⟩])
        else some (sideA, sideB, [])
    else some (sideA, sideB, [])
  rebal.map (fun r =>
    ⟨r.1 + ((others.map (fun tok => Int.tdiv tok.amount 2)).sum),
     r.2.1 + ((others.map (fun tok => tok.amount - Int.tdiv tok.amount 2)).sum),
     r.2.2 ++ others.bind (fun tok =>
       [⟨tok.token, c0, Int.tdiv tok.amount 2⟩,
        ⟨tok.token, c1, tok.amount - Int.tdiv tok.amount 2⟩])⟩)

theorem partition_foldl (c0 c1 : Str) (tokens : List TokenBalanceR)
    (a b : ℤ) (l : List TokenBalanceR) :
    tokens.foldl
      (fun (acc : ℤ × ℤ × List TokenBalanceR) tok =>
        if lowerStr tok.token = lowerStr c0 then
          (acc.1 + tok.amount, acc.2.1, acc.2.2)
        else if lowerStr tok.token = lowerStr c1 then
          (acc.1, acc.2.1 + tok.amount, acc.2.2)
        else (acc.1, acc.2.1, acc.2.2 ++ [tok]))
      (a, b, l) =
    (a + ((tokens.filter
        (fun tok => lowerStr tok.token == lowerStr c0)).map
          TokenBalanceR.amount).sum,
     b + ((tokens.filter (fun tok =>
        !(lowerStr tok.token == lowerStr c0) &&
          (lowerStr tok.token == lowerStr c1))).map TokenBalanceR.amount).sum,
     l ++ tokens.filter (fun tok =>
        !(lowerStr tok.token == lowerStr c0) &&
          !(lowerStr tok.token == lowerStr c1))) := by
  induction tokens generalizing a b l with
  | nil => simp
  | cons tok rest ih =>
    by_cases h0 : lowerStr tok.token = lowerStr c0
    · simp only [List.foldl_cons, if_pos h0, ih, List.filter_cons, h0,
        beq_self_eq_true, Bool.not_true, Bool.false_and, if_true, if_false,
        List.map_cons, List.sum_cons, Bool.and_false]
      simp [Prod.ext_iff]
      ring
    · by_cases h1 : lowerStr tok.token = lowerStr c1
      · simp only [List.foldl_cons, if_neg h0, if_pos h1, ih, List.filter_cons]
        have hb0 : (lowerStr tok.token == lowerStr c0) = false := by
          simp [h0]
        have hb1 : (lowerStr tok.token == lowerStr c1) = true := by
          simp [h1]
        simp [hb0, hb1, Prod.ext_iff]
        ring
      · simp only [List.foldl_cons, if_neg h0, if_neg h1, ih, List.filter_cons]
        have hb0 : (lowerStr tok.token == lowerStr c0) = false := by
          simp [h0]
        have hb1 : (lowerStr tok.token == lowerStr c1) = false := by
          simp [h1]
        simp [hb0, hb1, Prod.ext_iff]

theorem swaps_foldl (c0 c1 : Str) (others : List TokenBalanceR)
    (a b : ℤ) (sw : List SwapPlan) :
    others.foldl
      (fun (st : ℤ × ℤ × List SwapPlan) tok =>
        (st.1 + Int.tdiv tok.amount 2,
         st.2.1 + (tok.amount - Int.tdiv tok.amount 2),
         st.2.2 ++ [⟨tok.token, c0, Int.tdiv tok.amount 2⟩,
           ⟨tok.token, c1, tok.amount - Int.tdiv tok.amount 2⟩]))
      (a, b, sw) =
    (a + ((others.map (fun tok => Int.tdiv tok.amount 2)).sum),
     b + ((others.map (fun tok => tok.amount - Int.tdiv tok.amount 2)).sum),
     sw ++ others.bind (fun tok =>
       [⟨tok.token, c0, Int.tdiv tok.amount 2⟩,
        ⟨tok.token, c1, tok.amount - Int.tdiv tok.amount 2⟩])) := by
  induction others generalizing a b sw with
  | nil => simp
  | cons tok rest ih =>
    simp only [List.foldl_cons, ih, List.map_cons, List.sum_cons, List.cons_bind]
    simp [Prod.ext_iff, List.append_assoc]
    constructor <;> ring

/-- C9 (amended): `calculate5050Ratio` computes exactly the `spec5050`
split — partition into A / B / others, side B valued at
`amountB * ratio / 10^18` with the derived (or default `1`) ratio, at most
one guarded rebalancing swap toward the deficient side, and a
half-and-half pair of swaps for every other holding. -/
theorem C9_calculate5050_eq_spec (tokens : List TokenBalanceR)
    (poolKey : PoolKeyR) (currentPrice : Option ℤ) :
    calculate5050Ratio tokens poolKey currentPrice =
      spec5050 tokens poolKey currentPrice := by
  unfold calculate5050Ratio spec5050
  dsimp only
  rw [partition_foldl poolKey.currency0 poolKey.currency1 tokens 0 0 []]
  dsimp only
  simp only [zero_add, List.nil_append]
  congr 1
  funext r
  dsimp only
  rw [swaps_foldl]
